import Mathlib

/-
Verification of the duplicate-detection, quality-selection and collision-safe
naming core of the image-organizer repository (src/deduplicator.py,
src/selector.py, src/namer.py, with the PhotoMetadata record of
src/analyzer.py).

Python strings are embedded as lists of characters (abbrev Str), Python
pathlib.Path values as a parent string plus a file name (structure PPath,
with the stem/suffix split of pathlib), datetime values as a record of
calendar fields (structure DateTime), and dictionaries as association lists
in insertion order, which is how Python dictionaries iterate.  Loops are
embedded as structurally recursive functions; the one unbounded loop of the
source (the fallback probe of ensure_unique_filename) is run with a fuel
that is proved sufficient, so every definition stays executable.
-/

namespace ImageOrganizer

/-- Str is the embedding of a Python string: its list of characters. -/
abbrev Str := List Char

/-- digitChar n is the decimal digit character for n, 0 ≤ n ≤ 9. -/
def digitChar (n : Nat) : Char := Char.ofNat (48 + n)

/-- natDecAux fuel n renders n in decimal (most significant digit first),
returning the empty list for n = 0.  fuel only forces termination; any
fuel at least n computes the full rendering, and the callers pass n. -/
def natDecAux : Nat → Nat → List Char
  | _, 0 => []
  | 0, _ + 1 => []
  | fuel + 1, n + 1 => natDecAux fuel ((n + 1) / 10) ++ [digitChar ((n + 1) % 10)]

/-- natDec n is the decimal rendering of n, as Python str or the d format
of an integer produce it: at least one digit, no leading zeros. -/
def natDec (n : Nat) : List Char := if n = 0 then ['0'] else natDecAux n n

/-- padTo w n embeds the Python format 0wd: the decimal rendering of n,
zero-padded on the left to at least w characters. -/
def padTo (w : Nat) (n : Nat) : List Char :=
  List.replicate (w - (natDec n).length) '0' ++ natDec n

/-- valStep is one step of reading a decimal string back as a number. -/
def valStep (a : Nat) (c : Char) : Nat := a * 10 + (c.toNat - 48)

/-- valOf l reads a string of decimal digits back as a number. -/
def valOf (l : List Char) : Nat := l.foldl valStep 0

theorem digitChar_toNat_sub (r : Nat) (h : r < 10) : (digitChar r).toNat - 48 = r := by
  interval_cases r <;> decide

theorem natDecAux_foldl (fuel : Nat) :
    ∀ n, n ≤ fuel → ∀ a, (natDecAux fuel n).foldl valStep a =
      a * 10 ^ (natDecAux fuel n).length + n := by
  induction fuel with
  | zero =>
    intro n hn a
    interval_cases n
    simp [natDecAux]
  | succ fuel ih =>
    intro n hn a
    match n with
    | 0 => simp [natDecAux]
    | m + 1 =>
      have hdiv : (m + 1) / 10 ≤ fuel := by
        have h1 : (m + 1) / 10 < m + 1 := Nat.div_lt_self (Nat.succ_pos m) (by norm_num)
        omega
      have hr : (m + 1) % 10 < 10 := Nat.mod_lt _ (by norm_num)
      have hmod := Nat.div_add_mod (m + 1) 10
      simp only [natDecAux, List.foldl_append, List.length_append, List.length_cons,
        List.length_nil, List.foldl_cons, List.foldl_nil]
      rw [ih ((m + 1) / 10) hdiv a]
      unfold valStep
      rw [digitChar_toNat_sub _ hr]
      have hpow : (10 : Nat) ^ ((natDecAux fuel ((m + 1) / 10)).length + 1) =
          10 ^ (natDecAux fuel ((m + 1) / 10)).length * 10 := by
        rw [pow_succ]
      rw [hpow]
      generalize (10 : Nat) ^ (natDecAux fuel ((m + 1) / 10)).length = P
      have : 10 * ((m + 1) / 10) + (m + 1) % 10 = m + 1 := hmod
      calc (a * P + (m + 1) / 10) * 10 + (m + 1) % 10
          = a * (P * 10) + (10 * ((m + 1) / 10) + (m + 1) % 10) := by ring
        _ = a * (P * 10) + (m + 1) := by rw [this]

theorem valOf_natDec (n : Nat) : valOf (natDec n) = n := by
  by_cases h : n = 0
  · subst h; decide
  · unfold valOf natDec
    rw [if_neg h]
    rw [natDecAux_foldl n n (le_refl n) 0]
    simp

theorem foldl_replicate_zero (k : Nat) :
    List.foldl valStep 0 (List.replicate k '0') = 0 := by
  induction k with
  | zero => rfl
  | succ k ih => simpa [List.replicate_succ, valStep] using ih

theorem valOf_padTo (w n : Nat) : valOf (padTo w n) = n := by
  unfold valOf padTo
  rw [List.foldl_append, foldl_replicate_zero]
  exact valOf_natDec n

theorem padTo_inj (w m n : Nat) (h : padTo w m = padTo w n) : m = n := by
  have := congrArg valOf h
  rwa [valOf_padTo, valOf_padTo] at this

theorem natDecAux_length_le (fuel : Nat) :
    ∀ n k, n ≤ fuel → n < 10 ^ k → (natDecAux fuel n).length ≤ k := by
  induction fuel with
  | zero =>
    intro n k hn _
    interval_cases n
    simp [natDecAux]
  | succ fuel ih =>
    intro n k hn hk
    match n with
    | 0 => simp [natDecAux]
    | m + 1 =>
      have hkpos : 0 < k := by
        rcases Nat.eq_zero_or_pos k with hk0 | hk0
        · subst hk0; simp at hk
        · exact hk0
      have hdiv : (m + 1) / 10 ≤ fuel := by
        have h1 : (m + 1) / 10 < m + 1 := Nat.div_lt_self (Nat.succ_pos m) (by norm_num)
        omega
      have hdivlt : (m + 1) / 10 < 10 ^ (k - 1) := by
        rw [Nat.div_lt_iff_lt_mul (by norm_num : (0:Nat) < 10)]
        have : 10 ^ (k - 1) * 10 = 10 ^ k := by
          rw [← pow_succ]
          congr 1
          omega
        omega
      have := ih ((m + 1) / 10) (k - 1) hdiv hdivlt
      simp only [natDecAux, List.length_append, List.length_cons, List.length_nil]
      omega

theorem natDec_length_le (n k : Nat) (hk : 0 < k) (h : n < 10 ^ k) :
    (natDec n).length ≤ k := by
  unfold natDec
  by_cases h0 : n = 0
  · simp [h0]; omega
  · rw [if_neg h0]
    exact natDecAux_length_le n n k (le_refl n) h

theorem padTo_length (w n : Nat) :
    (padTo w n).length = max w (natDec n).length := by
  simp only [padTo, List.length_append, List.length_replicate]
  omega

/-- toLowerStr embeds Python str.lower (on the ASCII letters the repository
handles). -/
def toLowerStr (l : Str) : Str := l.map Char.toLower

/-- containsSub needle hay embeds the Python test needle in hay: needle
occurs in hay as a contiguous substring. -/
def containsSub (needle : Str) : Str → Bool
  | [] => needle.isPrefixOf []
  | c :: t => needle.isPrefixOf (c :: t) || containsSub needle t

/-- headIsDigit l holds when the first character of l exists and is a
decimal digit, as a regex d-class match at the current position requires. -/
def headIsDigit : Str → Bool
  | [] => false
  | c :: _ => c.isDigit

/-- isSpaceChar embeds the ASCII whitespace class of the regex s-class. -/
def isSpaceChar (c : Char) : Bool :=
  c = ' ' || c = '\t' || c = '\n' || c = '\r' || c = '\x0b' || c = '\x0c'

/-- PPath embeds a pathlib.Path as the string of its parent directory plus
its final component (the file name). -/
structure PPath where
  parent : Str
  name : Str
deriving DecidableEq

/-- pstr p embeds str(path): the parent joined to the name with a slash. -/
def pstr (p : PPath) : Str := p.parent ++ '/' :: p.name

/-- lastIdxOf c l is the index of the last occurrence of c in l, as Python
str.rfind returns it (none when absent). -/
def lastIdxOf (c : Char) (l : Str) : Option Nat :=
  match l.reverse.findIdx? (fun x => x == c) with
  | some j => some (l.length - 1 - j)
  | none => none

/-- nameSuffix embeds the pathlib suffix property: the part of the name
from its last dot, provided that dot is neither the first nor the last
character; otherwise the empty string. -/
def nameSuffix (n : Str) : Str :=
  match lastIdxOf '.' n with
  | some i => if 0 < i ∧ i < n.length - 1 then n.drop i else []
  | none => []

/-- nameStem embeds the pathlib stem property: the name with its suffix
removed. -/
def nameStem (n : Str) : Str := n.take (n.length - (nameSuffix n).length)

/-- DateTime embeds a Python datetime by its calendar fields. -/
structure DateTime where
  year : Nat
  month : Nat
  day : Nat
  hour : Nat
  minute : Nat
  second : Nat
  micro : Nat
deriving DecidableEq

/-- truncMicro embeds datetime.replace with microsecond zero, the rounding
the temporal grouper applies. -/
def truncMicro (d : DateTime) : DateTime :=
  { d with micro := 0 }

/-- strftimeName embeds strftime of the fixed pattern the namer uses:
year, month and day joined by dashes, an underscore, then hour, minute and
second joined by dashes, each field zero-padded as strftime pads it. -/
def strftimeName (d : DateTime) : Str :=
  padTo 4 d.year ++ '-' :: padTo 2 d.month ++ '-' :: padTo 2 d.day ++
    '_' :: padTo 2 d.hour ++ '-' :: padTo 2 d.minute ++ '-' :: padTo 2 d.second

/-- PhotoMetadata embeds the record of src/analyzer.py: the per-file facts
the core consumes.  mtime is kept only through mtime_date, the value
datetime.fromtimestamp(mtime) would give; the epoch-to-calendar conversion
is outside the modelled core, so the converted value is carried as a field
of the record the external analyzer hands over. -/
structure PhotoMetadata where
  file_path : PPath
  size : Nat
  mtime_date : DateTime
  content_hash : Option Str
  exif_data : List (Str × Str)
  date_taken : Option DateTime
  camera_make : Option Str
  camera_model : Option Str
deriving DecidableEq

/-- stemOf p is the stem of the file name of a record, used as grouping key
by the filename-similarity grouper. -/
def stemOf (p : PhotoMetadata) : Str := nameStem p.file_path.name

/-- entDisj states that two keyed groups share no record: the
record-level disjointness of the partition invariant. -/
def entDisj {K : Type} (e1 e2 : K × List PhotoMetadata) : Prop :=
  ∀ p, p ∈ e1.2 → p ∈ e2.2 → False

/-- count_exif_fields embeds count_exif_fields of src/selector.py: the
number of entries of the exif mapping. -/
def count_exif_fields (m : PhotoMetadata) : Nat := m.exif_data.length

/-- pairLe is the lexicographic order on pairs, as Python compares the
(size, exif count) key tuples. -/
def pairLe (x y : Nat × Nat) : Prop := x.1 < y.1 ∨ (x.1 = y.1 ∧ x.2 ≤ y.2)

instance (x y : Nat × Nat) : Decidable (pairLe x y) := by
  unfold pairLe; infer_instance

/-- photoKey m is the sort key (size, exif count) of select_best_photo. -/
def photoKey (m : PhotoMetadata) : Nat × Nat := (m.size, count_exif_fields m)

/-- bestRel a b holds when a sorts no later than b in the descending sort
of select_best_photo: the key of a is at least the key of b. -/
def bestRel (a b : PhotoMetadata) : Prop := pairLe (photoKey b) (photoKey a)

instance (a b : PhotoMetadata) : Decidable (bestRel a b) := by
  unfold bestRel; infer_instance

instance : IsTotal PhotoMetadata bestRel :=
  ⟨by intro a b; unfold bestRel pairLe; omega⟩

instance : IsTrans PhotoMetadata bestRel :=
  ⟨by intro a b c hab hbc; unfold bestRel pairLe at *; omega⟩

/-- select_best_photo embeds select_best_photo of src/selector.py: none
embeds the ValueError raised on an empty list; a single element is
returned as is; otherwise the head of the stable sort by descending
(size, exif count). -/
def select_best_photo (photos : List PhotoMetadata) : Option PhotoMetadata :=
  match photos with
  | [] => none
  | [p] => some p
  | ps => (ps.insertionSort bestRel).head?

/-- selectLoop embeds the group loop of select_unique_photos: for each
group take its best record into the keep set and its other members into
the exclude set; none embeds the ValueError escaping from an empty group. -/
def selectLoop :
    List (List PhotoMetadata) → Finset PhotoMetadata → Finset PhotoMetadata →
      Option (Finset PhotoMetadata × Finset PhotoMetadata)
  | [], keep, excl => some (keep, excl)
  | g :: gs, keep, excl =>
    match select_best_photo g with
    | none => none
    | some b => selectLoop gs (insert b keep) (excl ∪ (g.filter (fun p => decide (p ≠ b))).toFinset)

/-- select_unique_core runs the group loop of select_unique_photos from
empty keep and exclude sets. -/
def select_unique_core (duplicate_groups : List (List PhotoMetadata)) :
    Option (Finset PhotoMetadata × Finset PhotoMetadata) :=
  selectLoop duplicate_groups ∅ ∅

/-- select_unique_photos embeds select_unique_photos of src/selector.py:
the keep set of the group loop, together with every input record not in
the exclude set. -/
def select_unique_photos (all_photos : List PhotoMetadata)
    (duplicate_groups : List (List PhotoMetadata)) : Option (Finset PhotoMetadata) :=
  match select_unique_core duplicate_groups with
  | none => none
  | some ke => some (ke.1 ∪ (all_photos.filter (fun p => decide (p ∉ ke.2))).toFinset)

/-- bestsOf groups lists the winner of every group, in group order. -/
def bestsOf (groups : List (List PhotoMetadata)) : List PhotoMetadata :=
  groups.filterMap select_best_photo

/-- exclOfGroup g is the exclude contribution of one group: its members
other than its winner (empty when the group has no winner). -/
def exclOfGroup (g : List PhotoMetadata) : Finset PhotoMetadata :=
  match select_best_photo g with
  | some b => (g.filter (fun p => decide (p ≠ b))).toFinset
  | none => ∅

/-- exclsOf groups is the full exclude set of the group loop. -/
def exclsOf (groups : List (List PhotoMetadata)) : Finset PhotoMetadata :=
  groups.foldr (fun g acc => exclOfGroup g ∪ acc) ∅

/-- photoA is a concrete record used by witness statements. -/
def photoA : PhotoMetadata :=
  ⟨⟨[], ['a', '.', 'j']⟩, 2, ⟨1970, 1, 1, 0, 0, 0, 0⟩, none, [], none, none, none⟩

/-- photoB is a concrete record used by witness statements. -/
def photoB : PhotoMetadata :=
  ⟨⟨[], ['b', '.', 'j']⟩, 1, ⟨1970, 1, 1, 0, 0, 0, 0⟩, none, [], none, none, none⟩

/-- photoC is a concrete record used by witness statements. -/
def photoC : PhotoMetadata :=
  ⟨⟨[], ['c', '.', 'j']⟩, 3, ⟨1970, 1, 1, 0, 0, 0, 0⟩, none, [], none, none, none⟩

/-- startsThenDigit pre l embeds a re.match of an anchored pattern built of
the literal pre followed by one or more digits (the trailing characters are
free, as re.match only anchors the start). -/
def startsThenDigit (pre : Str) (l : Str) : Bool :=
  pre.isPrefixOf l && headIsDigit (l.drop pre.length)

/-- preSpacesDigit pre l embeds a re.match of the literal pre, then any run
of whitespace, then one or more digits. -/
def preSpacesDigit (pre : Str) (l : Str) : Bool :=
  pre.isPrefixOf l && headIsDigit ((l.drop pre.length).dropWhile isSpaceChar)

/-- patP8 embeds the pattern of a capital P followed by exactly eight
digits (further characters free). -/
def patP8 : Str → Bool
  | 'P' :: rest => decide (8 ≤ rest.length) && (rest.take 8).all Char.isDigit
  | _ => false

/-- non_meaningful_match l embeds the loop over NON_MEANINGFUL_PATTERNS of
src/namer.py: whether any of the twelve anchored patterns matches l.  The
patterns are kept with the exact case the source writes (IMG underscore,
DSC, Screenshot and so on), since re.match is case sensitive. -/
def non_meaningful_match (l : Str) : Bool :=
  startsThenDigit ['I', 'M', 'G', '_'] l ||
  startsThenDigit ['D', 'S', 'C'] l ||
  startsThenDigit ['D', 'S', 'C', '_'] l ||
  startsThenDigit ['D', 'S', 'C', 'N'] l ||
  patP8 l ||
  startsThenDigit ['V', 'I', 'D', '_'] l ||
  startsThenDigit ['S', 'A', 'M', '_'] l ||
  List.isPrefixOf ['S', 'c', 'r', 'e', 'e', 'n', 's', 'h', 'o', 't'] l ||
  preSpacesDigit ['P', 'h', 'o', 't', 'o'] l ||
  preSpacesDigit ['I', 'm', 'a', 'g', 'e'] l ||
  startsThenDigit ['p', 'i', 'c', '.'] l ||
  preSpacesDigit ['P', 'i', 'c', 't', 'u', 'r', 'e'] l

/-- descriptive_words embeds the descriptive word list of
is_meaningful_filename. -/
def descriptive_words : List Str :=
  [['p', 'h', 'o', 't', 'o'], ['p', 'i', 'c', 't', 'u', 'r', 'e'],
   ['i', 'm', 'a', 'g', 'e'], ['e', 'v', 'e', 'n', 't'],
   ['t', 'r', 'i', 'p'], ['v', 'a', 'c', 'a', 't', 'i', 'o', 'n'],
   ['b', 'i', 'r', 't', 'h', 'd', 'a', 'y'], ['w', 'e', 'd', 'd', 'i', 'n', 'g']]

/-- digitsN k l consumes exactly k digit characters from the front of l,
returning the rest, as a regex d-class of width k does. -/
def digitsN (k : Nat) (l : Str) : Option Str :=
  if decide ((l.take k).length = k) && (l.take k).all Char.isDigit then some (l.drop k)
  else none

/-- optSep consumes one optional dash or underscore, as the optional
separator class of the date pattern does (deterministic here, because a
separator character can never satisfy the digit class that follows). -/
def optSep : Str → Str
  | [] => []
  | c :: rest => if c = '-' ∨ c = '_' then rest else c :: rest

/-- dateAtStart embeds the anchored date pattern of is_meaningful_filename:
four digits, an optional separator, two digits, an optional separator, two
digits. -/
def dateAtStart (l : Str) : Bool :=
  match digitsN 4 l with
  | none => false
  | some r1 =>
    match digitsN 2 (optSep r1) with
    | none => false
    | some r2 => (digitsN 2 (optSep r2)).isSome

/-- is_meaningful_filename embeds is_meaningful_filename of src/namer.py,
step for step: lower-case the stem, reject on a pattern match, reject short
stems, replace underscores and dashes by spaces, reject a leading bare
date, then answer true whether or not a descriptive word occurs (both
branches of the source return True from there on). -/
def is_meaningful_filename (filename : Str) : Bool :=
  let filename_lower := toLowerStr filename
  if non_meaningful_match filename_lower then false
  else if decide (filename.length < 5) then false
  else
    let replaced := filename_lower.map (fun c => if c = '_' ∨ c = '-' then ' ' else c)
    if dateAtStart replaced then false
    else if descriptive_words.any (fun w => containsSub w replaced) then true
    else true

/-- invalidChar embeds the character class the sanitizer replaces. -/
def invalidChar (c : Char) : Bool :=
  c = '<' || c = '>' || c = ':' || c = '"' || c = '/' || c = '\\' ||
  c = '|' || c = '?' || c = '*'

/-- stripDotSpace is the class str.strip removes in the sanitizer. -/
def stripDotSpace (c : Char) : Bool := c = '.' || c = ' '

/-- sanitize_filename embeds sanitize_filename of src/namer.py: replace
invalid characters by underscores, strip leading and trailing dots and
spaces, truncate to 200 characters. -/
def sanitize_filename (filename : Str) : Str :=
  let s := filename.map (fun c => if invalidChar c then '_' else c)
  let s := ((s.dropWhile stripDotSpace).reverse.dropWhile stripDotSpace).reverse
  if decide (200 < s.length) then s.take 200 else s

/-- generate_datetime_name embeds generate_datetime_name of src/namer.py:
the strftime rendering of date_taken (falling back to the mtime-derived
datetime when date_taken is none) with the extension appended. -/
def generate_datetime_name (metadata : PhotoMetadata) (extension : Str) : Str :=
  strftimeName (metadata.date_taken.getD metadata.mtime_date) ++ extension

/-- mkSuffixCand base c is the candidate path of the first probe loop of
ensure_unique_filename: stem, underscore, the counter zero-padded to three
digits, the extension, in the same parent. -/
def mkSuffixCand (base : PPath) (c : Nat) : PPath :=
  { parent := base.parent,
    name := nameStem base.name ++ '_' :: padTo 3 c ++ nameSuffix base.name }

/-- tsBasePath base metadata is the fallback timestamp path of
ensure_unique_filename before any counter is appended. -/
def tsBasePath (base : PPath) (metadata : PhotoMetadata) : PPath :=
  { parent := base.parent,
    name := generate_datetime_name metadata (nameSuffix base.name) }

/-- mkTsCand base metadata c is the candidate path of the last-resort probe
loop of ensure_unique_filename: the stem of the timestamp name, underscore,
the counter zero-padded to three digits, the extension. -/
def mkTsCand (base : PPath) (metadata : PhotoMetadata) (c : Nat) : PPath :=
  { parent := base.parent,
    name := nameStem (generate_datetime_name metadata (nameSuffix base.name)) ++
      '_' :: padTo 3 c ++ nameSuffix base.name }

/-- probe mk used c fuel embeds a counter loop of ensure_unique_filename:
try the candidates mk c, mk (c+1), ... in order and return the first whose
path string is unused, or none after fuel attempts. -/
def probe (mk : Nat → PPath) (used_names : List Str) : Nat → Nat → Option PPath
  | _, 0 => none
  | c, fuel + 1 =>
    if pstr (mk c) ∈ used_names then probe mk used_names (c + 1) fuel
    else some (mk c)

/-- ensure_unique_aux embeds ensure_unique_filename of src/namer.py.  The
first probe tries the counters 1 to 9999, exactly as the source loop does
before its safety limit fires.  The source then falls back to the
timestamp name and, if that is also taken, to an unbounded counter loop
over timestamp names; that last loop is run here with fuel one more than
the number of used names, which the theorem ensure_unique_aux_isSome
proves sufficient, so none is never actually returned. -/
def ensure_unique_aux (base_path : PPath) (metadata : PhotoMetadata)
    (used_names : List Str) : Option PPath :=
  if pstr base_path ∈ used_names then
    match probe (mkSuffixCand base_path) used_names 1 9999 with
    | some p => some p
    | none =>
      if pstr (tsBasePath base_path metadata) ∈ used_names then
        probe (mkTsCand base_path metadata) used_names 1 (used_names.length + 1)
      else some (tsBasePath base_path metadata)
  else some base_path

/-- ensure_unique_filename is the total form of ensure_unique_aux; the
source function always returns a path, and the getD default is proved
unreachable. -/
def ensure_unique_filename (base_path : PPath) (metadata : PhotoMetadata)
    (used_names : List Str) : PPath :=
  (ensure_unique_aux base_path metadata used_names).getD base_path

/-- genCandidate embeds the per-record name decision of generate_names:
the stem and lower-cased extension of the original file name, preserved
(sanitized) when meaningful and replaced by the timestamp name otherwise,
joined under the destination root and the date folder of the record. -/
def genCandidate (destination_root : Str) (metadata : PhotoMetadata)
    (date_path : PPath) : PPath :=
  let stem := nameStem metadata.file_path.name
  let extension := toLowerStr (nameSuffix metadata.file_path.name)
  let new_filename :=
    if is_meaningful_filename stem then sanitize_filename stem ++ extension
    else generate_datetime_name metadata extension
  { parent := destination_root ++ '/' :: date_path.parent, name := new_filename }

/-- genLoop embeds the loop of generate_names of src/namer.py over the
insertion-ordered photo-to-path mapping, accumulating the named mapping
and the set of used path strings. -/
def genLoop (destination_root : Str) :
    List (PhotoMetadata × PPath) → List (PhotoMetadata × PPath) → List Str →
      List (PhotoMetadata × PPath)
  | [], named_photos, _ => named_photos
  | (metadata, date_path) :: rest, named_photos, used_names =>
    let final_path :=
      ensure_unique_filename (genCandidate destination_root metadata date_path)
        metadata used_names
    genLoop destination_root rest (named_photos ++ [(metadata, final_path)])
      (pstr final_path :: used_names)

/-- generate_names embeds generate_names of src/namer.py: name every record
of the mapping in order, starting from no used names. -/
def generate_names (photos_to_paths : List (PhotoMetadata × PPath))
    (destination_root : Str) : List (PhotoMetadata × PPath) :=
  genLoop destination_root photos_to_paths [] []

/-- addAssoc embeds appending to a defaultdict(list) entry: extend the
entry of key k when it exists, else add a new entry at the end. -/
def addAssoc {K : Type} [DecidableEq K] (gs : List (K × List PhotoMetadata)) (k : K)
    (p : PhotoMetadata) : List (K × List PhotoMetadata) :=
  match gs with
  | [] => [(k, [p])]
  | (k0, l) :: rest =>
    if k0 = k then (k0, l ++ [p]) :: rest else (k0, l) :: addAssoc rest k p

/-- addAllAssoc appends a batch of records to a defaultdict(list) entry. -/
def addAllAssoc (gs : List (Str × List PhotoMetadata)) (k : Str)
    (ps : List PhotoMetadata) : List (Str × List PhotoMetadata) :=
  match gs with
  | [] => [(k, ps)]
  | (k0, l) :: rest =>
    if k0 = k then (k0, l ++ ps) :: rest else (k0, l) :: addAllAssoc rest k ps

/-- hashStep embeds one iteration of group_by_content_hash: a record with
a truthy (present, non-empty) content hash is appended to the group of
that hash; records without one fall through. -/
def hashStep (gs : List (Str × List PhotoMetadata)) (p : PhotoMetadata) :
    List (Str × List PhotoMetadata) :=
  match p.content_hash with
  | some h => if h = [] then gs else addAssoc gs h p
  | none => gs

/-- group_by_content_hash embeds group_by_content_hash of
src/deduplicator.py: group the records with a truthy content hash by that
hash, in insertion order. -/
def group_by_content_hash (photos : List PhotoMetadata) :
    List (Str × List PhotoMetadata) :=
  photos.foldl hashStep []

/-- ExifKey is the grouping key of the temporal grouper: capture time with
microseconds dropped, camera make, camera model. -/
abbrev ExifKey := DateTime × Option Str × Option Str

/-- exifKeyStep embeds one iteration of group_by_exif_datetime: a record
with a capture time is appended to the group of its (time, make, model)
key. -/
def exifKeyStep (gs : List (ExifKey × List PhotoMetadata)) (p : PhotoMetadata) :
    List (ExifKey × List PhotoMetadata) :=
  match p.date_taken with
  | some d => addAssoc gs (truncMicro d, p.camera_make, p.camera_model) p
  | none => gs

/-- group_by_exif_datetime embeds group_by_exif_datetime of
src/deduplicator.py. -/
def group_by_exif_datetime (photos : List PhotoMetadata) :
    List (ExifKey × List PhotoMetadata) :=
  photos.foldl exifKeyStep []

/-- suffixes_to_remove embeds the suffix list of is_similar_filename. -/
def suffixes_to_remove : List Str :=
  [['_', 'e', 'd', 'i', 't', 'e', 'd'], ['_', 'c', 'o', 'p', 'y'],
   ['_', '1'], ['_', '2'], ['-', '1'], ['-', '2'],
   [' ', '(', '1', ')'], [' ', '(', '2', ')']]

/-- stripSuffixes embeds the suffix-stripping loop of is_similar_filename:
each listed suffix is tested once, in order, and removed when present. -/
def stripSuffixes (b : Str) : Str :=
  suffixes_to_remove.foldl
    (fun b suf => if suf.isSuffixOf b then b.take (b.length - suf.length) else b) b

/-- simPrefixes embeds the alternation of the prefix-and-number pattern of
is_similar_filename, in the order the alternation tries them. -/
def simPrefixes : List Str :=
  [['i', 'm', 'g', '_'], ['d', 's', 'c'], ['p', 'h', 'o', 't', 'o'],
   ['p', 'i', 'c'], ['i', 'm', 'a', 'g', 'e'], ['i', 'm', 'g']]

/-- matchPrefixNum b embeds the re.match of the prefix-and-number pattern:
the digit group of the first alternative that matches, none otherwise. -/
def matchPrefixNum (b : Str) : Option Str :=
  simPrefixes.findSome? (fun pre =>
    if pre.isPrefixOf b && headIsDigit (b.drop pre.length) then
      some ((b.drop pre.length).takeWhile Char.isDigit)
    else none)

/-- is_similar_filename embeds is_similar_filename of src/deduplicator.py:
lower-case both stems, strip the listed suffixes, compare digit groups when
both stems match the prefix-and-number pattern, else test substring
containment guarded by a minimum length of six on both sides. -/
def is_similar_filename (name1 name2 : Str) : Bool :=
  let base1 := stripSuffixes (toLowerStr name1)
  let base2 := stripSuffixes (toLowerStr name2)
  match matchPrefixNum base1, matchPrefixNum base2 with
  | some d1, some d2 => d1 == d2
  | _, _ =>
    (containsSub base1 base2 || containsSub base2 base1) &&
      decide (5 < base1.length) && decide (5 < base2.length)

/-- fsimAux embeds the nested loops of group_by_filename_similarity: the
first unprocessed record opens (or, when its stem is already a key, joins)
the group of its stem and absorbs every later unprocessed record whose stem
it matches; the records it does not match stay for the next round.  fuel
only forces termination: the unprocessed remainder shrinks every round, so
the fuel the caller passes (the list length) is never exhausted. -/
def fsimAux : Nat → List PhotoMetadata → List (Str × List PhotoMetadata) →
    List (Str × List PhotoMetadata)
  | _, [], gs => gs
  | 0, _ :: _, gs => gs
  | fuel + 1, p :: rest, gs =>
    let k := stemOf p
    let matched := rest.filter (fun q => is_similar_filename k (stemOf q))
    let unmatched := rest.filter (fun q => !(is_similar_filename k (stemOf q)))
    fsimAux fuel unmatched (addAllAssoc gs k (p :: matched))

/-- group_by_filename_similarity embeds group_by_filename_similarity of
src/deduplicator.py: the greedy grouping pass, keeping the entries with
more than one member. -/
def group_by_filename_similarity (photos : List PhotoMetadata) :
    List (Str × List PhotoMetadata) :=
  (fsimAux photos.length photos []).filter (fun e => decide (1 < e.2.length))

/-- pathsOf dg collects the file paths of every record of every group, the
already-grouped set the coordinator filters against. -/
def pathsOf (dg : List (Str × List PhotoMetadata)) : List PPath :=
  dg.foldl (fun acc e => acc ++ e.2.map (fun p => p.file_path)) []

/-- dictSet embeds assignment to a Python dictionary key: replace the value
in place when the key exists, else append the pair. -/
def dictSet {V : Type} (gs : List (Str × V)) (k : Str) (v : V) : List (Str × V) :=
  if k ∈ gs.map Prod.fst then gs.map (fun e => if e.1 = k then (k, v) else e)
  else gs ++ [(k, v)]

/-- hashGroupId is the synthetic id of a hash group: hash_ and the first
eight characters of the hash. -/
def hashGroupId (h : Str) : Str := ['h', 'a', 's', 'h', '_'] ++ h.take 8

/-- exifGroupId is the synthetic id of a temporal group. -/
def exifGroupId (n : Nat) : Str := ['e', 'x', 'i', 'f', '_'] ++ natDec n

/-- filenameGroupId is the synthetic id of a filename-similarity group. -/
def filenameGroupId (n : Nat) : Str :=
  ['f', 'i', 'l', 'e', 'n', 'a', 'm', 'e', '_'] ++ natDec n

/-- hashStage embeds method 1 of detect_duplicates: every hash group with
more than one member is written into the group dictionary. -/
def hashStage (photos : List PhotoMetadata) : List (Str × List PhotoMetadata) :=
  (group_by_content_hash photos).foldl
    (fun dg e => if 1 < e.2.length then dictSet dg (hashGroupId e.1) e.2 else dg)
    []

/-- exifStep embeds one iteration of method 2 of detect_duplicates: a
temporal group with more than one member is filtered against the paths
already grouped (recomputed from the current dictionary, as the source
does inside the loop) and written when more than one member survives. -/
def exifStep (st : List (Str × List PhotoMetadata) × Nat)
    (e : ExifKey × List PhotoMetadata) : List (Str × List PhotoMetadata) × Nat :=
  if 1 < e.2.length then
    let ung := e.2.filter (fun p => decide (p.file_path ∉ pathsOf st.1))
    if 1 < ung.length then
      (dictSet st.1 (exifGroupId (st.2 + 1)) ung, st.2 + 1)
    else st
  else st

/-- exifStage folds exifStep over the temporal groups. -/
def exifStage (photos : List PhotoMetadata)
    (st : List (Str × List PhotoMetadata) × Nat) :
    List (Str × List PhotoMetadata) × Nat :=
  (group_by_exif_datetime photos).foldl exifStep st

/-- fnameStep embeds one iteration of method 3 of detect_duplicates:
a filename-similarity group with more than one member is written under a
fresh synthetic id. -/
def fnameStep (st : List (Str × List PhotoMetadata) × Nat)
    (e : Str × List PhotoMetadata) : List (Str × List PhotoMetadata) × Nat :=
  if 1 < e.2.length then
    (dictSet st.1 (filenameGroupId (st.2 + 1)) e.2, st.2 + 1)
  else st

/-- detect_duplicates embeds detect_duplicates of src/deduplicator.py: the
hash stage, the temporal stage over the same input filtered by path inside
the loop, and, unless skipped, the filename stage over the records whose
paths no earlier group holds. -/
def detect_duplicates (photos : List PhotoMetadata)
    (skip_filename_similarity : Bool) : List (Str × List PhotoMetadata) :=
  let st1 := exifStage photos (hashStage photos, 0)
  if skip_filename_similarity then st1.1
  else
    let ungrouped_photos :=
      photos.filter (fun p => decide (p.file_path ∉ pathsOf st1.1))
    ((group_by_filename_similarity ungrouped_photos).foldl fnameStep st1).1

theorem head?_mem {α : Type} {l : List α} {b : α} (h : l.head? = some b) : b ∈ l := by
  cases l with
  | nil => simp at h
  | cons a t =>
    simp only [List.head?_cons, Option.some.injEq] at h
    subst h
    exact List.mem_cons_self a t

theorem select_best_mem {g : List PhotoMetadata} {b : PhotoMetadata}
    (h : select_best_photo g = some b) : b ∈ g := by
  match g with
  | [] => simp [select_best_photo] at h
  | [p] =>
    simp only [select_best_photo, Option.some.injEq] at h
    subst h
    exact List.mem_singleton_self p
  | p :: q :: rest =>
    have hb := head?_mem h
    have hperm := List.perm_insertionSort bestRel (p :: q :: rest)
    exact hperm.mem_iff.mp hb

theorem select_best_isSome {g : List PhotoMetadata} (h : g ≠ []) :
    ∃ b, select_best_photo g = some b := by
  match g with
  | [] => exact absurd rfl h
  | [p] => exact ⟨p, rfl⟩
  | p :: q :: rest =>
    have hperm := List.perm_insertionSort bestRel (p :: q :: rest)
    have hlen : ((p :: q :: rest).insertionSort bestRel).length = (p :: q :: rest).length :=
      hperm.length_eq
    cases hs : (p :: q :: rest).insertionSort bestRel with
    | nil => rw [hs] at hlen; simp at hlen
    | cons b t =>
      refine ⟨b, ?_⟩
      show ((p :: q :: rest).insertionSort bestRel).head? = some b
      rw [hs]
      rfl

theorem pairLe_refl (x : Nat × Nat) : pairLe x x := Or.inr ⟨rfl, le_refl _⟩

theorem select_best_max {g : List PhotoMetadata} {b : PhotoMetadata}
    (h : select_best_photo g = some b) : ∀ p ∈ g, pairLe (photoKey p) (photoKey b) := by
  match g with
  | [] => simp [select_best_photo] at h
  | [p] =>
    simp only [select_best_photo, Option.some.injEq] at h
    subst h
    intro p hp
    rw [List.mem_singleton] at hp
    subst hp
    exact pairLe_refl _
  | p :: q :: rest =>
    intro x hx
    have hsorted := List.sorted_insertionSort bestRel (p :: q :: rest)
    have hperm := List.perm_insertionSort bestRel (p :: q :: rest)
    have hx2 : x ∈ (p :: q :: rest).insertionSort bestRel := hperm.symm.subset hx
    have h2 : ((p :: q :: rest).insertionSort bestRel).head? = some b := h
    cases hs : (p :: q :: rest).insertionSort bestRel with
    | nil => rw [hs] at hx2; simp at hx2
    | cons c t =>
      rw [hs] at h2 hx2 hsorted
      simp only [List.head?_cons, Option.some.injEq] at h2
      subst h2
      rcases List.mem_cons.mp hx2 with hxb | hxt
      · subst hxb; exact pairLe_refl _
      · exact List.rel_of_sorted_cons hsorted x hxt

/-- C8: select_best_photo signals an error (none, the embedding of the
ValueError it raises) exactly when its input group is empty; on any
non-empty group it returns a record. -/
theorem C8_select_best_error_iff_empty (photos : List PhotoMetadata) :
    select_best_photo photos = none ↔ photos = [] := by
  constructor
  · intro h
    by_contra hne
    obtain ⟨b, hb⟩ := select_best_isSome hne
    rw [h] at hb
    exact Option.noConfusion hb
  · intro h; subst h; rfl

/-- C10: called on a one-element list, select_best_photo returns that sole
element and signals no error. -/
theorem C10_select_best_singleton (p : PhotoMetadata) :
    select_best_photo [p] = some p := rfl

/-- C5: on a non-empty list select_best_photo returns a member whose
(size, exif-field count) key is lexicographically greatest: at least the
key of every record of the list. -/
theorem C5_select_best_key_maximal (photos : List PhotoMetadata)
    (h : photos ≠ []) :
    ∃ b, select_best_photo photos = some b ∧ b ∈ photos ∧
      ∀ p ∈ photos, pairLe (photoKey p) (photoKey b) := by
  obtain ⟨b, hb⟩ := select_best_isSome h
  exact ⟨b, hb, select_best_mem hb, select_best_max hb⟩

/-- C5 witness: the theorem applied to a concrete two-record list. -/
theorem C5_witness :
    ∃ b, select_best_photo [photoA, photoB] = some b ∧ b ∈ [photoA, photoB] ∧
      ∀ p ∈ [photoA, photoB], pairLe (photoKey p) (photoKey b) :=
  C5_select_best_key_maximal [photoA, photoB] (by decide)

theorem mem_exclOfGroup {g : List PhotoMetadata} {p : PhotoMetadata} :
    p ∈ exclOfGroup g ↔ ∃ b, select_best_photo g = some b ∧ p ∈ g ∧ p ≠ b := by
  unfold exclOfGroup
  cases hb : select_best_photo g with
  | none => simp
  | some b =>
    simp only [List.mem_toFinset, List.mem_filter, decide_eq_true_eq,
      Option.some.injEq]
    constructor
    · rintro ⟨hp, hne⟩
      exact ⟨b, rfl, hp, hne⟩
    · rintro ⟨b2, hb2, hp, hne⟩
      subst hb2
      exact ⟨hp, hne⟩

theorem mem_exclsOf {groups : List (List PhotoMetadata)} {p : PhotoMetadata} :
    p ∈ exclsOf groups ↔ ∃ g ∈ groups, p ∈ exclOfGroup g := by
  induction groups with
  | nil => simp [exclsOf]
  | cons g gs ih =>
    show p ∈ exclOfGroup g ∪ exclsOf gs ↔ _
    rw [Finset.mem_union, ih]
    simp only [List.mem_cons]
    constructor
    · rintro (h | ⟨g2, hg2, hp⟩)
      · exact ⟨g, Or.inl rfl, h⟩
      · exact ⟨g2, Or.inr hg2, hp⟩
    · rintro ⟨g2, (rfl | hg2), hp⟩
      · exact Or.inl hp
      · exact Or.inr ⟨g2, hg2, hp⟩

theorem mem_bestsOf {groups : List (List PhotoMetadata)} {b : PhotoMetadata} :
    b ∈ bestsOf groups ↔ ∃ g ∈ groups, select_best_photo g = some b := by
  unfold bestsOf
  exact List.mem_filterMap

theorem exclOfGroup_eq {g : List PhotoMetadata} {b : PhotoMetadata}
    (h : select_best_photo g = some b) :
    exclOfGroup g = (g.filter (fun p => decide (p ≠ b))).toFinset := by
  unfold exclOfGroup
  rw [h]

theorem selectLoop_eq (groups : List (List PhotoMetadata)) :
    ∀ K E : Finset PhotoMetadata, (∀ g ∈ groups, g ≠ []) →
      selectLoop groups K E = some (K ∪ (bestsOf groups).toFinset, E ∪ exclsOf groups) := by
  induction groups with
  | nil =>
    intro K E _
    simp [selectLoop, bestsOf, exclsOf]
  | cons g gs ih =>
    intro K E h
    obtain ⟨b, hb⟩ := select_best_isSome (h g (List.mem_cons_self g gs))
    have hstep : selectLoop (g :: gs) K E =
        selectLoop gs (insert b K) (E ∪ (g.filter (fun p => decide (p ≠ b))).toFinset) := by
      show (match select_best_photo g with
        | none => none
        | some b => selectLoop gs (insert b K)
            (E ∪ (g.filter (fun p => decide (p ≠ b))).toFinset)) = _
      rw [hb]
    rw [hstep, ih _ _ (fun g2 hg2 => h g2 (List.mem_cons_of_mem g hg2))]
    have hbests : bestsOf (g :: gs) = b :: bestsOf gs := by
      simp [bestsOf, List.filterMap_cons, hb]
    have hexcls : exclsOf (g :: gs) = exclOfGroup g ∪ exclsOf gs := rfl
    rw [hbests, hexcls, List.toFinset_cons, exclOfGroup_eq hb,
      Finset.insert_union, Finset.union_insert, Finset.union_assoc]

theorem bestsOf_length (groups : List (List PhotoMetadata))
    (h : ∀ g ∈ groups, g ≠ []) : (bestsOf groups).length = groups.length := by
  induction groups with
  | nil => rfl
  | cons g gs ih =>
    obtain ⟨b, hb⟩ := select_best_isSome (h g (List.mem_cons_self g gs))
    have : bestsOf (g :: gs) = b :: bestsOf gs := by
      simp [bestsOf, List.filterMap_cons, hb]
    rw [this]
    simp only [List.length_cons]
    rw [ih (fun g2 hg2 => h g2 (List.mem_cons_of_mem g hg2))]

theorem bestsOf_nodup (groups : List (List PhotoMetadata))
    (hdisj : groups.Pairwise (fun g1 g2 => ∀ p, p ∈ g1 → p ∈ g2 → False))
    (h : ∀ g ∈ groups, g ≠ []) : (bestsOf groups).Nodup := by
  induction groups with
  | nil => exact List.nodup_nil
  | cons g gs ih =>
    obtain ⟨b, hb⟩ := select_best_isSome (h g (List.mem_cons_self g gs))
    have hcons : bestsOf (g :: gs) = b :: bestsOf gs := by
      simp [bestsOf, List.filterMap_cons, hb]
    rw [hcons, List.nodup_cons]
    rw [List.pairwise_cons] at hdisj
    constructor
    · intro hmem
      obtain ⟨g2, hg2, hb2⟩ := mem_bestsOf.mp hmem
      exact hdisj.1 g2 hg2 b (select_best_mem hb) (select_best_mem hb2)
    · exact ih hdisj.2 (fun g2 hg2 => h g2 (List.mem_cons_of_mem g hg2))

/-- C6: for a distinct input and duplicate groups drawn from it that
satisfy the partition invariant with groups of two or more records, the
keep set returned by select_unique_photos and the exclude set of the group
loop partition the input, and the keep set has one record per group plus
one per ungrouped record. -/
theorem C6_keep_exclude_completeness (all_photos : List PhotoMetadata)
    (groups : List (List PhotoMetadata))
    (hnd : all_photos.Nodup)
    (hsub : ∀ g ∈ groups, ∀ p ∈ g, p ∈ all_photos)
    (hdisj : groups.Pairwise (fun g1 g2 => ∀ p, p ∈ g1 → p ∈ g2 → False))
    (hsize : ∀ g ∈ groups, 2 ≤ g.length) :
    ∃ keep excl,
      select_unique_core groups = some ((bestsOf groups).toFinset, excl) ∧
      select_unique_photos all_photos groups = some keep ∧
      keep ∪ excl = all_photos.toFinset ∧
      keep ∩ excl = ∅ ∧
      keep.card =
        (all_photos.filter (fun p => decide (∀ g ∈ groups, p ∉ g))).length +
          groups.length := by
  have hne : ∀ g ∈ groups, g ≠ [] := by
    intro g hg he
    have := hsize g hg
    rw [he] at this
    simp at this
  have hcore0 := selectLoop_eq groups ∅ ∅ hne
  rw [Finset.empty_union, Finset.empty_union] at hcore0
  have hcore : select_unique_core groups = some ((bestsOf groups).toFinset, exclsOf groups) :=
    hcore0
  set K0 := (bestsOf groups).toFinset with hK0
  set EX := exclsOf groups with hEX
  set F := (all_photos.filter (fun p => decide (p ∉ EX))).toFinset with hF
  have hkeep : select_unique_photos all_photos groups = some (K0 ∪ F) := by
    unfold select_unique_photos
    rw [hcore]
  have hFmem : ∀ p, p ∈ F ↔ p ∈ all_photos ∧ p ∉ EX := by
    intro p
    rw [hF, List.mem_toFinset, List.mem_filter]
    simp [decide_eq_true_eq]
  have hK0mem : ∀ b, b ∈ K0 → ∃ g ∈ groups, select_best_photo g = some b := by
    intro b hbK
    exact mem_bestsOf.mp (List.mem_toFinset.mp hbK)
  have hsymm : Symmetric (fun g1 g2 : List PhotoMetadata => ∀ p, p ∈ g1 → p ∈ g2 → False) := by
    intro g1 g2 h12 p hp2 hp1
    exact h12 p hp1 hp2
  have hbest_not_excl : ∀ b, b ∈ K0 → b ∉ EX := by
    intro b hbK hbE
    obtain ⟨g, hg, hb⟩ := hK0mem b hbK
    obtain ⟨g2, hg2, hpe⟩ := mem_exclsOf.mp hbE
    obtain ⟨b2, hb2, hbg2, hne2⟩ := mem_exclOfGroup.mp hpe
    by_cases hgg : g = g2
    · subst hgg
      rw [hb] at hb2
      exact hne2 (Option.some.inj hb2.symm).symm
    · exact hdisj.forall hsymm hg hg2 hgg b (select_best_mem hb) hbg2
  have hEXsub : ∀ p, p ∈ EX → ∃ g ∈ groups, p ∈ g := by
    intro p hp
    obtain ⟨g, hg, hpe⟩ := mem_exclsOf.mp hp
    obtain ⟨b, _, hpg, _⟩ := mem_exclOfGroup.mp hpe
    exact ⟨g, hg, hpg⟩
  have hK0all : ∀ b, b ∈ K0 → b ∈ all_photos := by
    intro b hbK
    obtain ⟨g, hg, hb⟩ := hK0mem b hbK
    exact hsub g hg b (select_best_mem hb)
  refine ⟨K0 ∪ F, EX, hcore, hkeep, ?_, ?_, ?_⟩
  · ext p
    simp only [Finset.mem_union, List.mem_toFinset]
    constructor
    · rintro ((hp | hp) | hp)
      · exact hK0all p hp
      · exact ((hFmem p).mp hp).1
      · obtain ⟨g, hg, hpg⟩ := hEXsub p hp
        exact hsub g hg p hpg
    · intro hp
      by_cases hpe : p ∈ EX
      · exact Or.inr hpe
      · exact Or.inl (Or.inr ((hFmem p).mpr ⟨hp, hpe⟩))
  · ext p
    simp only [Finset.mem_inter, Finset.mem_union, Finset.not_mem_empty, iff_false]
    rintro ⟨hp | hp, hpe⟩
    · exact hbest_not_excl p hp hpe
    · exact ((hFmem p).mp hp).2 hpe
  · set UF := (all_photos.filter (fun p => decide (∀ g ∈ groups, p ∉ g))).toFinset with hUF
    have hUFmem : ∀ p, p ∈ UF ↔ p ∈ all_photos ∧ ∀ g ∈ groups, p ∉ g := by
      intro p
      rw [hUF, List.mem_toFinset, List.mem_filter]
      simp [decide_eq_true_eq]
    have hFsplit : F = K0 ∪ UF := by
      ext p
      rw [hFmem p, Finset.mem_union, hUFmem p]
      constructor
      · rintro ⟨hall, hnex⟩
        by_cases hgp : ∃ g ∈ groups, p ∈ g
        · obtain ⟨g, hg, hpg⟩ := hgp
          obtain ⟨b, hb⟩ := select_best_isSome (hne g hg)
          by_cases hpb : p = b
          · subst hpb
            exact Or.inl (List.mem_toFinset.mpr (mem_bestsOf.mpr ⟨g, hg, hb⟩))
          · exact absurd (mem_exclsOf.mpr ⟨g, hg, mem_exclOfGroup.mpr ⟨b, hb, hpg, hpb⟩⟩) hnex
        · push_neg at hgp
          exact Or.inr ⟨hall, hgp⟩
      · rintro (hp | ⟨hall, hung⟩)
        · exact ⟨hK0all p hp, hbest_not_excl p hp⟩
        · refine ⟨hall, fun hpe => ?_⟩
          obtain ⟨g, hg, hpg⟩ := hEXsub p hpe
          exact hung g hg hpg
    have hkeepeq : K0 ∪ F = K0 ∪ UF := by
      rw [hFsplit, ← Finset.union_assoc, Finset.union_self]
    rw [hkeepeq]
    have hdisjKU : Disjoint K0 UF := by
      rw [Finset.disjoint_left]
      intro b hbK hbU
      obtain ⟨g, hg, hb⟩ := hK0mem b hbK
      exact ((hUFmem b).mp hbU).2 g hg (select_best_mem hb)
    rw [Finset.card_union_of_disjoint hdisjKU]
    have hcardK : K0.card = groups.length := by
      rw [hK0, List.toFinset_card_of_nodup (bestsOf_nodup groups hdisj hne)]
      exact bestsOf_length groups hne
    have hcardU : UF.card =
        (all_photos.filter (fun p => decide (∀ g ∈ groups, p ∉ g))).length := by
      rw [hUF, List.toFinset_card_of_nodup (hnd.filter _)]
    rw [hcardK, hcardU]
    omega

/-- C6 witness: the theorem applied to a concrete three-record input with
one two-record group. -/
theorem C6_witness :
    ∃ keep excl,
      select_unique_core [[photoA, photoB]] = some ((bestsOf [[photoA, photoB]]).toFinset, excl) ∧
      select_unique_photos [photoA, photoB, photoC] [[photoA, photoB]] = some keep ∧
      keep ∪ excl = [photoA, photoB, photoC].toFinset ∧
      keep ∩ excl = ∅ ∧
      keep.card =
        ([photoA, photoB, photoC].filter
          (fun p => decide (∀ g ∈ [[photoA, photoB]], p ∉ g))).length + 1 :=
  C6_keep_exclude_completeness [photoA, photoB, photoC] [[photoA, photoB]]
    (by decide) (by decide) (by decide) (by decide)

/-- cexBase is the base path of the exhausted-probe scenario. -/
def cexBase : PPath := { parent := ['d'], name := ['x'] }

/-- cexMeta is the record of the exhausted-probe scenario; its capture time
yields the timestamp name 2023-06-01_10-00-00. -/
def cexMeta : PhotoMetadata :=
  ⟨⟨[], []⟩, 0, ⟨1970, 1, 1, 0, 0, 0, 0⟩, none, [],
    some ⟨2023, 6, 1, 10, 0, 0, 0⟩, none, none⟩

/-- cexUsed is a used-name set holding the base path, all 9999 first-probe
candidates, the fallback timestamp path and all 9999 of its capped-probe
candidates: both counter caps of the claim are exhausted on it. -/
def cexUsed : List Str :=
  pstr cexBase ::
    ((List.range 9999).map (fun i => pstr (mkSuffixCand cexBase (i + 1))) ++
      pstr (tsBasePath cexBase cexMeta) ::
        (List.range 9999).map (fun i => pstr (mkTsCand cexBase cexMeta (i + 1))))

theorem probe_fresh (mk : Nat → PPath) (used : List Str) :
    ∀ fuel c p, probe mk used c fuel = some p → pstr p ∉ used := by
  intro fuel
  induction fuel with
  | zero => intro c p h; simp [probe] at h
  | succ fuel ih =>
    intro c p h
    simp only [probe] at h
    by_cases hc : pstr (mk c) ∈ used
    · rw [if_pos hc] at h
      exact ih (c + 1) p h
    · rw [if_neg hc] at h
      cases h
      exact hc

theorem probe_none_all_mem (mk : Nat → PPath) (used : List Str) :
    ∀ fuel c, probe mk used c fuel = none → ∀ k < fuel, pstr (mk (c + k)) ∈ used := by
  intro fuel
  induction fuel with
  | zero => intro c _ k hk; omega
  | succ fuel ih =>
    intro c h k hk
    simp only [probe] at h
    by_cases hc : pstr (mk c) ∈ used
    · rw [if_pos hc] at h
      match k with
      | 0 => simpa using hc
      | k + 1 =>
        have := ih (c + 1) h k (by omega)
        rwa [show c + 1 + k = c + (k + 1) by omega] at this
    · rw [if_neg hc] at h
      exact absurd h (Option.noConfusion)

theorem probe_eq_none (mk : Nat → PPath) (used : List Str) :
    ∀ fuel c, (∀ k < fuel, pstr (mk (c + k)) ∈ used) → probe mk used c fuel = none := by
  intro fuel
  induction fuel with
  | zero => intro c _; rfl
  | succ fuel ih =>
    intro c h
    simp only [probe]
    rw [if_pos (by simpa using h 0 (by omega))]
    refine ih (c + 1) (fun k hk => ?_)
    have := h (k + 1) (by omega)
    rwa [show c + (k + 1) = c + 1 + k by omega] at this

theorem probe_eq_some (mk : Nat → PPath) (used : List Str) :
    ∀ fuel c j, j < fuel → (∀ k < j, pstr (mk (c + k)) ∈ used) →
      pstr (mk (c + j)) ∉ used → probe mk used c fuel = some (mk (c + j)) := by
  intro fuel
  induction fuel with
  | zero => intro c j hj; omega
  | succ fuel ih =>
    intro c j hj hall hfree
    match j with
    | 0 =>
      simp only [probe]
      rw [if_neg (by simpa using hfree)]
      simp
    | j + 1 =>
      simp only [probe]
      rw [if_pos (by simpa using hall 0 (by omega))]
      have := ih (c + 1) j (by omega)
        (fun k hk => by
          have := hall (k + 1) (by omega)
          rwa [show c + (k + 1) = c + 1 + k by omega] at this)
        (by rwa [show c + (j + 1) = c + 1 + j by omega] at hfree)
      rwa [show c + 1 + j = c + (j + 1) by omega] at this

theorem cons_append_pad_inj (S E : Str) (a b : Char) (c1 c2 : Nat)
    (h : a :: (S ++ b :: padTo 3 c1 ++ E) = a :: (S ++ b :: padTo 3 c2 ++ E)) :
    c1 = c2 := by
  injection h with _ h3
  have h4 := List.append_cancel_right h3
  have h5 := List.append_cancel_left h4
  injection h5 with _ h6
  exact padTo_inj 3 c1 c2 h6

theorem probe_shape (mk : Nat → PPath) (used : List Str) :
    ∀ fuel c p, probe mk used c fuel = some p → ∃ j, p = mk j := by
  intro fuel
  induction fuel with
  | zero => intro c p h; simp [probe] at h
  | succ fuel ih =>
    intro c p h
    simp only [probe] at h
    by_cases hc : pstr (mk c) ∈ used
    · rw [if_pos hc] at h
      exact ih (c + 1) p h
    · rw [if_neg hc] at h
      cases h
      exact ⟨c, rfl⟩

theorem pstr_mkTsCand_inj (base : PPath) (meta : PhotoMetadata) :
    Function.Injective (fun c => pstr (mkTsCand base meta c)) := by
  intro c1 c2 h
  simp only [pstr, mkTsCand] at h
  have h2 := List.append_cancel_left h
  exact cons_append_pad_inj
    (nameStem (generate_datetime_name meta (nameSuffix base.name)))
    (nameSuffix base.name) '/' '_' c1 c2 h2

theorem probe_isSome_of_inj (mk : Nat → PPath) (used : List Str)
    (hinj : Function.Injective (fun c => pstr (mk c))) :
    ∃ p, probe mk used 1 (used.length + 1) = some p := by
  cases hp : probe mk used 1 (used.length + 1) with
  | some p => exact ⟨p, rfl⟩
  | none =>
    exfalso
    have hall := probe_none_all_mem mk used (used.length + 1) 1 hp
    have hfinj : Set.InjOn (fun k => pstr (mk (1 + k))) (Finset.range (used.length + 1)) := by
      intro a _ b _ hab
      have := hinj hab
      omega
    have hsub : (Finset.range (used.length + 1)).image (fun k => pstr (mk (1 + k))) ⊆
        used.toFinset := by
      intro s hs
      obtain ⟨k, hk, rfl⟩ := Finset.mem_image.mp hs
      exact List.mem_toFinset.mpr (hall k (Finset.mem_range.mp hk))
    have hcard := Finset.card_le_card hsub
    rw [Finset.card_image_of_injOn hfinj, Finset.card_range] at hcard
    have := List.toFinset_card_le used
    omega

theorem ensure_unique_aux_total (base : PPath) (meta : PhotoMetadata) (used : List Str) :
    ∃ p, ensure_unique_aux base meta used = some p ∧ pstr p ∉ used := by
  unfold ensure_unique_aux
  by_cases h0 : pstr base ∈ used
  · rw [if_pos h0]
    cases hp : probe (mkSuffixCand base) used 1 9999 with
    | some p => exact ⟨p, rfl, probe_fresh _ _ _ _ _ hp⟩
    | none =>
      by_cases h1 : pstr (tsBasePath base meta) ∈ used
      · rw [if_pos h1]
        obtain ⟨p, hp2⟩ := probe_isSome_of_inj (mkTsCand base meta) used
          (pstr_mkTsCand_inj base meta)
        exact ⟨p, hp2, probe_fresh _ _ _ _ _ hp2⟩
      · rw [if_neg h1]
        exact ⟨tsBasePath base meta, rfl, h1⟩
  · rw [if_neg h0]
    exact ⟨base, rfl, h0⟩

theorem ensure_unique_fresh (base : PPath) (meta : PhotoMetadata) (used : List Str) :
    pstr (ensure_unique_filename base meta used) ∉ used := by
  obtain ⟨p, hp, hfresh⟩ := ensure_unique_aux_total base meta used
  unfold ensure_unique_filename
  rw [hp]
  exact hfresh

/-- C9: ensure_unique_filename terminates on every finite used-name set
(it is a total function of this development) and returns a path whose
string is not among the used names. -/
theorem C9_ensure_unique_collision_free (base_path : PPath) (metadata : PhotoMetadata)
    (used_names : List Str) :
    pstr (ensure_unique_filename base_path metadata used_names) ∉ used_names :=
  ensure_unique_fresh base_path metadata used_names

/-- C4 amended: the first probe is capped at 9999 attempts and on
exhaustion the resolver switches to the timestamp-based name, but the
second, timestamp-based probe is not capped: ensure_unique_filename never
reports a per-record failure — for every finite used-name set it returns
an unused path, and when the capped first probe is exhausted that path is
the timestamp path or one of its counter variants. -/
theorem C4_amended_total_no_failure (base_path : PPath) (metadata : PhotoMetadata)
    (used_names : List Str) :
    ∃ p, ensure_unique_aux base_path metadata used_names = some p ∧
      pstr p ∉ used_names ∧
      (probe (mkSuffixCand base_path) used_names 1 9999 = none →
        pstr base_path ∈ used_names →
        (p = tsBasePath base_path metadata ∨ ∃ c, p = mkTsCand base_path metadata c)) := by
  unfold ensure_unique_aux
  by_cases h0 : pstr base_path ∈ used_names
  · rw [if_pos h0]
    cases hp : probe (mkSuffixCand base_path) used_names 1 9999 with
    | some p =>
      refine ⟨p, rfl, probe_fresh _ _ _ _ _ hp, ?_⟩
      intro hnone
      simp at hnone
    | none =>
      by_cases h1 : pstr (tsBasePath base_path metadata) ∈ used_names
      · rw [if_pos h1]
        obtain ⟨p, hp2⟩ := probe_isSome_of_inj (mkTsCand base_path metadata) used_names
          (pstr_mkTsCand_inj base_path metadata)
        exact ⟨p, hp2, probe_fresh _ _ _ _ _ hp2,
          fun _ _ => Or.inr (probe_shape _ _ _ _ _ hp2)⟩
      · rw [if_neg h1]
        exact ⟨tsBasePath base_path metadata, rfl, h1, fun _ _ => Or.inl rfl⟩
  · rw [if_neg h0]
    exact ⟨base_path, rfl, h0, fun _ h => absurd h h0⟩

/-- C4 amended witness: the amended theorem applied at a concrete input. -/
theorem C4_amended_witness :
    ∃ p, ensure_unique_aux cexBase cexMeta [] = some p ∧ pstr p ∉ ([] : List Str) ∧
      (probe (mkSuffixCand cexBase) [] 1 9999 = none →
        pstr cexBase ∈ ([] : List Str) →
        (p = tsBasePath cexBase cexMeta ∨ ∃ c, p = mkTsCand cexBase cexMeta c)) :=
  C4_amended_total_no_failure cexBase cexMeta []

/-- C4 counterexample: on the concrete used-name set cexUsed both
9999-counter caps of the claim are exhausted (the base path, every
first-probe candidate 1..9999, the timestamp path and every timestamp
candidate 1..9999 are used), yet ensure_unique_filename does not skip or
report the record: its fallback probe keeps counting past the cap and
returns the 10000th timestamp candidate, an unused path. -/
theorem C4_counterexample_unbounded_fallback :
    pstr cexBase ∈ cexUsed ∧
    (∀ c, 1 ≤ c → c ≤ 9999 → pstr (mkSuffixCand cexBase c) ∈ cexUsed) ∧
    pstr (tsBasePath cexBase cexMeta) ∈ cexUsed ∧
    (∀ c, 1 ≤ c → c ≤ 9999 → pstr (mkTsCand cexBase cexMeta c) ∈ cexUsed) ∧
    ensure_unique_filename cexBase cexMeta cexUsed = mkTsCand cexBase cexMeta 10000 ∧
    pstr (mkTsCand cexBase cexMeta 10000) ∉ cexUsed := by
  have hm1 : pstr cexBase ∈ cexUsed := by
    unfold cexUsed
    exact List.mem_cons_self _ _
  have hm2 : ∀ c, 1 ≤ c → c ≤ 9999 → pstr (mkSuffixCand cexBase c) ∈ cexUsed := by
    intro c h1 h2
    unfold cexUsed
    apply List.mem_cons_of_mem
    apply List.mem_append_left
    rw [List.mem_map]
    refine ⟨c - 1, List.mem_range.mpr (by omega), ?_⟩
    rw [Nat.sub_add_cancel h1]
  have hm3 : pstr (tsBasePath cexBase cexMeta) ∈ cexUsed := by
    unfold cexUsed
    apply List.mem_cons_of_mem
    apply List.mem_append_right
    exact List.mem_cons_self _ _
  have hm4 : ∀ c, 1 ≤ c → c ≤ 9999 → pstr (mkTsCand cexBase cexMeta c) ∈ cexUsed := by
    intro c h1 h2
    unfold cexUsed
    apply List.mem_cons_of_mem
    apply List.mem_append_right
    apply List.mem_cons_of_mem
    rw [List.mem_map]
    refine ⟨c - 1, List.mem_range.mpr (by omega), ?_⟩
    rw [Nat.sub_add_cancel h1]
  have hpadlen : ∀ c, 1 ≤ c → c ≤ 9999 → (padTo 3 c).length ≤ 4 := by
    intro c h1 h2
    rw [padTo_length]
    have : (natDec c).length ≤ 4 := natDec_length_le c 4 (by norm_num) (by omega)
    omega
  have hsfxlen : ∀ c, 1 ≤ c → c ≤ 9999 → (pstr (mkSuffixCand cexBase c)).length ≤ 8 := by
    intro c h1 h2
    have hp := hpadlen c h1 h2
    have hstem : nameStem cexBase.name = ['x'] := by decide
    have hsuf : nameSuffix cexBase.name = ([] : Str) := by decide
    have hpar : cexBase.parent = ['d'] := rfl
    simp only [pstr, mkSuffixCand, hstem, hsuf, hpar, List.append_nil,
      List.length_append, List.length_cons, List.length_nil]
    omega
  have hTlen : ∀ c, 1 ≤ c → c ≤ 9999 → (pstr (mkTsCand cexBase cexMeta c)).length ≤ 26 := by
    intro c h1 h2
    have hp := hpadlen c h1 h2
    have hstem19 :
        (nameStem (generate_datetime_name cexMeta (nameSuffix cexBase.name))).length = 19 := by
      decide
    have hsuf : nameSuffix cexBase.name = ([] : Str) := by decide
    have hpar : cexBase.parent = ['d'] := rfl
    simp only [pstr, mkTsCand, hsuf, hpar, List.append_nil,
      List.length_append, List.length_cons, List.length_nil]
    rw [hsuf] at hstem19
    omega
  have h27 : (pstr (mkTsCand cexBase cexMeta 10000)).length = 27 := by decide
  have hfresh : pstr (mkTsCand cexBase cexMeta 10000) ∉ cexUsed := by
    intro hmem
    unfold cexUsed at hmem
    rcases List.mem_cons.mp hmem with he | hmem2
    · have hlen := congrArg List.length he
      have hbase3 : (pstr cexBase).length = 3 := by decide
      rw [h27, hbase3] at hlen
      omega
    · rcases List.mem_append.mp hmem2 with hA | hB
      · obtain ⟨i, hi, he⟩ := List.mem_map.mp hA
        rw [List.mem_range] at hi
        have hlen := congrArg List.length he
        rw [h27] at hlen
        have := hsfxlen (i + 1) (by omega) (by omega)
        omega
      · rcases List.mem_cons.mp hB with he | hC
        · have hlen := congrArg List.length he
          have h21 : (pstr (tsBasePath cexBase cexMeta)).length = 21 := by decide
          rw [h27, h21] at hlen
          omega
        · obtain ⟨i, hi, he⟩ := List.mem_map.mp hC
          rw [List.mem_range] at hi
          have hlen := congrArg List.length he
          rw [h27] at hlen
          have := hTlen (i + 1) (by omega) (by omega)
          omega
  have hlenU : cexUsed.length = 20000 := by
    simp [cexUsed]
  have hprobe1 : probe (mkSuffixCand cexBase) cexUsed 1 9999 = none := by
    apply probe_eq_none
    intro k hk
    exact hm2 (1 + k) (by omega) (by omega)
  have h10000 : (1 : Nat) + 9999 = 10000 := by norm_num
  have hprobe2 : probe (mkTsCand cexBase cexMeta) cexUsed 1 (cexUsed.length + 1) =
      some (mkTsCand cexBase cexMeta 10000) := by
    have hx := probe_eq_some (mkTsCand cexBase cexMeta) cexUsed (cexUsed.length + 1) 1 9999
      (by rw [hlenU]; omega)
      (fun k hk => hm4 (1 + k) (by omega) (by omega))
      (by rw [h10000]; exact hfresh)
    rwa [h10000] at hx
  have haux : ensure_unique_aux cexBase cexMeta cexUsed =
      some (mkTsCand cexBase cexMeta 10000) := by
    unfold ensure_unique_aux
    rw [if_pos hm1, hprobe1]
    show (if pstr (tsBasePath cexBase cexMeta) ∈ cexUsed then
        probe (mkTsCand cexBase cexMeta) cexUsed 1 (cexUsed.length + 1)
      else some (tsBasePath cexBase cexMeta)) = _
    rw [if_pos hm3]
    exact hprobe2
  have hfinal : ensure_unique_filename cexBase cexMeta cexUsed =
      mkTsCand cexBase cexMeta 10000 := by
    unfold ensure_unique_filename
    rw [haux]
    rfl
  exact ⟨hm1, hm2, hm3, hm4, hfinal, hfresh⟩

theorem genLoop_pairwise (destination_root : Str) :
    ∀ rest named used,
      (∀ pr ∈ named, pstr (Prod.snd pr) ∈ used) →
      named.Pairwise (fun a b : PhotoMetadata × PPath => pstr a.2 ≠ pstr b.2) →
      (genLoop destination_root rest named used).Pairwise
        (fun a b => pstr a.2 ≠ pstr b.2) := by
  intro rest
  induction rest with
  | nil =>
    intro named used _ h2
    exact h2
  | cons pr rest ih =>
    obtain ⟨metadata, date_path⟩ := pr
    intro named used h1 h2
    show (genLoop destination_root rest
        (named ++ [(metadata,
          ensure_unique_filename (genCandidate destination_root metadata date_path)
            metadata used)])
        (pstr (ensure_unique_filename (genCandidate destination_root metadata date_path)
          metadata used) :: used)).Pairwise _
    apply ih
    · intro pr2 hpr2
      rcases List.mem_append.mp hpr2 with hin | hnew
      · exact List.mem_cons_of_mem _ (h1 pr2 hin)
      · rw [List.mem_singleton] at hnew
        subst hnew
        exact List.mem_cons_self _ _
    · rw [List.pairwise_append]
      refine ⟨h2, List.pairwise_singleton _ _, ?_⟩
      intro a ha b hb
      rw [List.mem_singleton] at hb
      subst hb
      intro he
      exact ensure_unique_fresh (genCandidate destination_root metadata date_path)
        metadata used (he ▸ h1 a ha)

/-- C1: the mapping generate_names returns assigns pairwise distinct path
strings: no two entries of the returned mapping share a destination path
string. -/
theorem C1_generate_names_path_unique (photos_to_paths : List (PhotoMetadata × PPath))
    (destination_root : Str) :
    (generate_names photos_to_paths destination_root).Pairwise
      (fun a b => pstr a.2 ≠ pstr b.2) := by
  unfold generate_names
  refine genLoop_pairwise destination_root photos_to_paths [] [] ?_ List.Pairwise.nil
  intro pr hpr
  simp at hpr

/-- C3: the source classifies the stem IMG_0042 as meaningful (true), so
the original name is preserved instead of being replaced by the capture
timestamp.  The device patterns of NON_MEANINGFUL_PATTERNS are matched
case-sensitively against the lower-cased stem, so the upper-case patterns
(IMG_, DSC, VID_ and the rest) can never fire, against the stated claim
and the comments of the source itself. -/
theorem C3_img_stem_classified_meaningful :
    is_meaningful_filename ['I', 'M', 'G', '_', '0', '0', '4', '2'] = true := by
  decide

theorem beq_str_comm (x y : Str) : (x == y) = (y == x) := by
  by_cases h : x = y
  · subst h; rfl
  · rw [beq_eq_false_iff_ne.mpr h, beq_eq_false_iff_ne.mpr (Ne.symm h)]

theorem bool_sub_expr_comm (x y p q : Bool) :
    ((x || y) && p && q) = ((y || x) && q && p) := by
  cases x <;> cases y <;> cases p <;> cases q <;> rfl

theorem is_similar_symm (a b : Str) :
    is_similar_filename a b = is_similar_filename b a := by
  unfold is_similar_filename
  generalize stripSuffixes (toLowerStr a) = B1
  generalize stripSuffixes (toLowerStr b) = B2
  show (match matchPrefixNum B1, matchPrefixNum B2 with
      | some d1, some d2 => d1 == d2
      | _, _ => (containsSub B1 B2 || containsSub B2 B1) &&
          decide (5 < B1.length) && decide (5 < B2.length)) =
    (match matchPrefixNum B2, matchPrefixNum B1 with
      | some d1, some d2 => d1 == d2
      | _, _ => (containsSub B2 B1 || containsSub B1 B2) &&
          decide (5 < B2.length) && decide (5 < B1.length))
  cases h1 : matchPrefixNum B1 with
  | none =>
    cases h2 : matchPrefixNum B2 with
    | none => exact bool_sub_expr_comm _ _ _ _
    | some d2 => exact bool_sub_expr_comm _ _ _ _
  | some d1 =>
    cases h2 : matchPrefixNum B2 with
    | none => exact bool_sub_expr_comm _ _ _ _
    | some d2 => exact beq_str_comm d1 d2

theorem mem_addAllAssoc {gs : List (Str × List PhotoMetadata)} {k : Str}
    {ps : List PhotoMetadata} {e : Str × List PhotoMetadata}
    (h : e ∈ addAllAssoc gs k ps) :
    e ∈ gs ∨ ∃ l0, e = (k, l0 ++ ps) ∧ ((k, l0) ∈ gs ∨ l0 = []) := by
  induction gs with
  | nil =>
    simp only [addAllAssoc, List.mem_singleton] at h
    exact Or.inr ⟨[], by simpa using h, Or.inr rfl⟩
  | cons e0 rest ih =>
    obtain ⟨k0, l⟩ := e0
    simp only [addAllAssoc] at h
    by_cases hk : k0 = k
    · rw [if_pos hk] at h
      subst hk
      rcases List.mem_cons.mp h with he | hrest
      · exact Or.inr ⟨l, he, Or.inl (List.mem_cons_self _ _)⟩
      · exact Or.inl (List.mem_cons_of_mem _ hrest)
    · rw [if_neg hk] at h
      rcases List.mem_cons.mp h with he | hrest
      · exact Or.inl (he ▸ List.mem_cons_self _ _)
      · rcases ih hrest with hin | ⟨l0, hel, hl0⟩
        · exact Or.inl (List.mem_cons_of_mem _ hin)
        · refine Or.inr ⟨l0, hel, ?_⟩
          rcases hl0 with hmem | hnil
          · exact Or.inl (List.mem_cons_of_mem _ hmem)
          · exact Or.inr hnil

theorem addAllAssoc_keys (gs : List (Str × List PhotoMetadata)) (k : Str)
    (ps : List PhotoMetadata) :
    (addAllAssoc gs k ps).map Prod.fst =
      if k ∈ gs.map Prod.fst then gs.map Prod.fst else gs.map Prod.fst ++ [k] := by
  induction gs with
  | nil => simp [addAllAssoc]
  | cons e0 rest ih =>
    obtain ⟨k0, l⟩ := e0
    simp only [addAllAssoc, List.map_cons]
    by_cases hk : k0 = k
    · subst hk
      rw [if_pos]
      · simp
      · simp
    · rw [if_neg hk]
      simp only [List.map_cons, ih, List.mem_cons]
      by_cases hmem : k ∈ rest.map Prod.fst
      · rw [if_pos hmem, if_pos (Or.inr hmem)]
      · rw [if_neg hmem, if_neg (by push_neg; exact ⟨fun he => hk he.symm, hmem⟩)]
        simp

theorem addAllAssoc_keys_nodup {gs : List (Str × List PhotoMetadata)} {k : Str}
    {ps : List PhotoMetadata} (h : (gs.map Prod.fst).Nodup) :
    ((addAllAssoc gs k ps).map Prod.fst).Nodup := by
  rw [addAllAssoc_keys]
  by_cases hmem : k ∈ gs.map Prod.fst
  · rwa [if_pos hmem]
  · rw [if_neg hmem]
    rw [List.nodup_append]
    exact ⟨h, List.nodup_singleton k, by simpa using hmem⟩

theorem fsimAux_invariant :
    ∀ (fuel : Nat) (rem : List PhotoMetadata) (gs : List (Str × List PhotoMetadata)),
      (gs.map Prod.fst).Nodup →
      (∀ e ∈ gs, ∀ x ∈ e.2, stemOf x = e.1 ∨ is_similar_filename e.1 (stemOf x) = true) →
      (∀ x ∈ rem, ∀ e ∈ gs, is_similar_filename e.1 (stemOf x) = false) →
      (∀ e1 ∈ gs, ∀ e2 ∈ gs, ∀ x, x ∈ e1.2 → x ∈ e2.2 → e1.1 = e2.1) →
      (∀ e ∈ gs, ∃ h t, e.2 = h :: t ∧ stemOf h = e.1) →
      (((fsimAux fuel rem gs).map Prod.fst).Nodup ∧
        (∀ e ∈ fsimAux fuel rem gs, ∀ x ∈ e.2,
          stemOf x = e.1 ∨ is_similar_filename e.1 (stemOf x) = true) ∧
        (∀ e1 ∈ fsimAux fuel rem gs, ∀ e2 ∈ fsimAux fuel rem gs, ∀ x,
          x ∈ e1.2 → x ∈ e2.2 → e1.1 = e2.1) ∧
        (∀ e ∈ fsimAux fuel rem gs, ∃ h t, e.2 = h :: t ∧ stemOf h = e.1)) := by
  intro fuel
  induction fuel with
  | zero =>
    intro rem gs hk h2 _ h5 h6
    cases rem with
    | nil => exact ⟨hk, h2, h5, h6⟩
    | cons p rest => exact ⟨hk, h2, h5, h6⟩
  | succ fuel ih =>
    intro rem gs hk h2 h3 h5 h6
    cases rem with
    | nil => exact ⟨hk, h2, h5, h6⟩
    | cons p0 rest =>
      set k := stemOf p0 with hkdef
      set matched := rest.filter (fun q => is_similar_filename k (stemOf q)) with hm
      set unmatched := rest.filter (fun q => !(is_similar_filename k (stemOf q))) with hu
      set gs2 := addAllAssoc gs k (p0 :: matched) with hgs
      have hstep : fsimAux (fuel + 1) (p0 :: rest) gs = fsimAux fuel unmatched gs2 := rfl
      rw [hstep]
      have hnew : ∀ e ∈ gs, ∀ y, y ∈ e.2 → y ∈ p0 :: matched → e.1 = k := by
        intro e he y hye hynew
        rcases List.mem_cons.mp hynew with rfl | hym
        · rcases h2 e he y hye with hstem | hsim
          · exact hstem.symm.trans hkdef.symm
          · have hfalse := h3 y (List.mem_cons_self _ _) e he
            rw [hfalse] at hsim
            exact absurd hsim (by simp)
        · rw [hm] at hym
          have hymf := List.mem_filter.mp hym
          have hysim : is_similar_filename k (stemOf y) = true := hymf.2
          have hfalse := h3 y (List.mem_cons_of_mem _ hymf.1) e he
          have hstem : stemOf y = e.1 := by
            rcases h2 e he y hye with hs | hsim
            · exact hs
            · rw [hfalse] at hsim
              exact absurd hsim (by simp)
          have hke1 : is_similar_filename k e.1 = true := hstem ▸ hysim
          have hp0 := h3 p0 (List.mem_cons_self _ _) e he
          rw [← hkdef, is_similar_symm] at hp0
          rw [hp0] at hke1
          exact absurd hke1 (by simp)
      apply ih unmatched gs2
      · exact addAllAssoc_keys_nodup hk
      · intro e he x hx
        rcases mem_addAllAssoc (hgs ▸ he) with hin | ⟨l0, rfl, hl0⟩
        · exact h2 e hin x hx
        · rcases List.mem_append.mp hx with hxl0 | hxps
          · rcases hl0 with hl0in | rfl
            · exact h2 (k, l0) hl0in x hxl0
            · simp at hxl0
          · rcases List.mem_cons.mp hxps with rfl | hxm
            · exact Or.inl hkdef.symm
            · rw [hm] at hxm
              exact Or.inr (List.mem_filter.mp hxm).2
      · intro x hxu e he
        rw [hu] at hxu
        have hxf := List.mem_filter.mp hxu
        have hxfalse : is_similar_filename k (stemOf x) = false := by
          simpa using hxf.2
        rcases mem_addAllAssoc (hgs ▸ he) with hin | ⟨l0, rfl, hl0⟩
        · exact h3 x (List.mem_cons_of_mem p0 hxf.1) e hin
        · exact hxfalse
      · intro e1 he1 e2 he2 x hx1 hx2
        rcases mem_addAllAssoc (hgs ▸ he1) with h1in | ⟨l1, he1eq, hl1⟩
        · rcases mem_addAllAssoc (hgs ▸ he2) with h2in | ⟨l2, he2eq, hl2⟩
          · exact h5 e1 h1in e2 h2in x hx1 hx2
          · subst he2eq
            rcases List.mem_append.mp hx2 with hxl2 | hxnew
            · rcases hl2 with hl2in | rfl
              · exact h5 e1 h1in (k, l2) hl2in x hx1 hxl2
              · simp at hxl2
            · exact hnew e1 h1in x hx1 hxnew
        · subst he1eq
          rcases mem_addAllAssoc (hgs ▸ he2) with h2in | ⟨l2, he2eq, hl2⟩
          · rcases List.mem_append.mp hx1 with hxl1 | hxnew
            · rcases hl1 with hl1in | rfl
              · exact h5 (k, l1) hl1in e2 h2in x hxl1 hx2
              · simp at hxl1
            · exact (hnew e2 h2in x hx2 hxnew).symm
          · subst he2eq
            rfl
      · intro e he
        rcases mem_addAllAssoc (hgs ▸ he) with hin | ⟨l0, rfl, hl0⟩
        · exact h6 e hin
        · rcases hl0 with hl0in | rfl
          · obtain ⟨h, t, hht, hst⟩ := h6 (k, l0) hl0in
            refine ⟨h, t ++ (p0 :: matched), ?_, hst⟩
            have hl0 : l0 = h :: t := hht
            rw [hl0]
            rfl
          · exact ⟨p0, matched, by simp, hkdef.symm⟩

theorem entries_pairwise_of_fun {K : Type} (gs : List (K × List PhotoMetadata))
    (hkeys : (gs.map Prod.fst).Nodup)
    (hfun : ∀ e1 ∈ gs, ∀ e2 ∈ gs, ∀ x, x ∈ e1.2 → x ∈ e2.2 → e1.1 = e2.1) :
    gs.Pairwise entDisj := by
  have hkp : gs.Pairwise (fun e1 e2 => e1.1 ≠ e2.1) := List.pairwise_map.mp hkeys
  refine List.Pairwise.imp_of_mem ?_ hkp
  intro e1 e2 h1 h2 hne p hp1 hp2
  exact hne (hfun e1 h1 e2 h2 p hp1 hp2)

theorem group_by_filename_similarity_spec (photos : List PhotoMetadata) :
    (group_by_filename_similarity photos).Pairwise entDisj ∧
    (∀ e ∈ group_by_filename_similarity photos, ∀ x ∈ e.2,
      stemOf x = e.1 ∨ is_similar_filename e.1 (stemOf x) = true) ∧
    (∀ e ∈ group_by_filename_similarity photos, ∃ h t, e.2 = h :: t ∧ stemOf h = e.1) := by
  obtain ⟨hk, h2, h5, h6⟩ := fsimAux_invariant photos.length photos []
    (by simp) (by simp) (by simp) (by simp) (by simp)
  unfold group_by_filename_similarity
  refine ⟨?_, ?_, ?_⟩
  · have hkeys2 :
        (((fsimAux photos.length photos []).filter
          (fun e => decide (1 < e.2.length))).map Prod.fst).Nodup :=
      List.Nodup.sublist (List.Sublist.map Prod.fst (List.filter_sublist _)) hk
    apply entries_pairwise_of_fun _ hkeys2
    intro e1 he1 e2 he2 x hx1 hx2
    exact h5 e1 (List.mem_of_mem_filter he1) e2 (List.mem_of_mem_filter he2) x hx1 hx2
  · intro e he
    exact h2 e (List.mem_of_mem_filter he)
  · intro e he
    exact h6 e (List.mem_of_mem_filter he)

theorem fsimAux_members :
    ∀ (fuel : Nat) (rem : List PhotoMetadata) (gs : List (Str × List PhotoMetadata)),
      ∀ e ∈ fsimAux fuel rem gs, ∀ x ∈ e.2,
        (∃ e0 ∈ gs, x ∈ e0.2) ∨ x ∈ rem := by
  intro fuel
  induction fuel with
  | zero =>
    intro rem gs e he x hx
    cases rem with
    | nil => exact Or.inl ⟨e, he, hx⟩
    | cons p rest => exact Or.inl ⟨e, he, hx⟩
  | succ fuel ih =>
    intro rem gs e he x hx
    cases rem with
    | nil => exact Or.inl ⟨e, he, hx⟩
    | cons p0 rest =>
      have hstep : fsimAux (fuel + 1) (p0 :: rest) gs =
          fsimAux fuel
            (rest.filter (fun q => !(is_similar_filename (stemOf p0) (stemOf q))))
            (addAllAssoc gs (stemOf p0)
              (p0 :: rest.filter (fun q => is_similar_filename (stemOf p0) (stemOf q)))) := rfl
      rw [hstep] at he
      rcases ih _ _ e he x hx with ⟨e0, he0, hx0⟩ | hxrem
      · rcases mem_addAllAssoc he0 with hin | ⟨l0, rfl, hl0⟩
        · exact Or.inl ⟨e0, hin, hx0⟩
        · rcases List.mem_append.mp hx0 with hxl0 | hxps
          · rcases hl0 with hl0in | rfl
            · exact Or.inl ⟨(stemOf p0, l0), hl0in, hxl0⟩
            · simp at hxl0
          · rcases List.mem_cons.mp hxps with rfl | hxm
            · exact Or.inr (List.mem_cons_self _ _)
            · exact Or.inr (List.mem_cons_of_mem _ (List.mem_of_mem_filter hxm))
      · exact Or.inr (List.mem_cons_of_mem _ (List.mem_of_mem_filter hxrem))

theorem group_by_filename_similarity_members (photos : List PhotoMetadata) :
    ∀ e ∈ group_by_filename_similarity photos, ∀ x ∈ e.2, x ∈ photos := by
  intro e he x hx
  have := fsimAux_members photos.length photos [] e (List.mem_of_mem_filter he) x hx
  rcases this with ⟨e0, he0, _⟩ | hmem
  · simp at he0
  · exact hmem

/-- photoAB1 is a record whose stem is the two-character string ab, too
short for is_similar_filename to relate it even to itself. -/
def photoAB1 : PhotoMetadata :=
  ⟨⟨[], ['a', 'b', '.', 'j']⟩, 1, ⟨1970, 1, 1, 0, 0, 0, 0⟩, none, [], none, none, none⟩

/-- photoAB2 is a distinct record with the same stem as photoAB1. -/
def photoAB2 : PhotoMetadata :=
  ⟨⟨[], ['a', 'b', '.', 'j']⟩, 2, ⟨1970, 1, 1, 0, 0, 0, 0⟩, none, [], none, none, none⟩

/-- C7 counterexample: the two records share the stem ab, which
is_similar_filename does not relate to itself (the length guard), yet the
key collision of the grouping dictionary merges their two openings into a
single group: the returned group holds photoAB2, which never matched the
opening record photoAB1. -/
theorem C7_counterexample_key_collision :
    group_by_filename_similarity [photoAB1, photoAB2] =
      [(['a', 'b'], [photoAB1, photoAB2])] ∧
    photoAB2 ≠ photoAB1 ∧
    is_similar_filename (stemOf photoAB1) (stemOf photoAB2) = false := by
  decide

/-- C7 amended: in every group returned by group_by_filename_similarity
the first member's stem is the group key, and every member either matched
the key under is_similar_filename or itself has the key as its stem (the
stem opens or joins the group of the same key); nothing else enters a
group. -/
theorem C7_amended_members_match_key (photos : List PhotoMetadata)
    (e : Str × List PhotoMetadata) (he : e ∈ group_by_filename_similarity photos) :
    (∃ h t, e.2 = h :: t ∧ stemOf h = e.1) ∧
    ∀ x ∈ e.2, stemOf x = e.1 ∨ is_similar_filename e.1 (stemOf x) = true := by
  obtain ⟨_, h2, h6⟩ := group_by_filename_similarity_spec photos
  exact ⟨h6 e he, h2 e he⟩

/-- C7 amended witness: the amended theorem applied to the concrete merged
group of the counterexample input. -/
theorem C7_amended_witness :
    (∃ h t, ((['a', 'b'], [photoAB1, photoAB2]) : Str × List PhotoMetadata).2 = h :: t ∧
      stemOf h = (['a', 'b'], [photoAB1, photoAB2]).1) ∧
    ∀ x ∈ ((['a', 'b'], [photoAB1, photoAB2]) : Str × List PhotoMetadata).2,
      stemOf x = (['a', 'b'], [photoAB1, photoAB2]).1 ∨
        is_similar_filename (['a', 'b'], [photoAB1, photoAB2]).1 (stemOf x) = true :=
  C7_amended_members_match_key [photoAB1, photoAB2]
    (['a', 'b'], [photoAB1, photoAB2]) (by decide)

theorem addAssoc_keys {K : Type} [DecidableEq K] (gs : List (K × List PhotoMetadata))
    (k : K) (p : PhotoMetadata) :
    (addAssoc gs k p).map Prod.fst =
      if k ∈ gs.map Prod.fst then gs.map Prod.fst else gs.map Prod.fst ++ [k] := by
  induction gs with
  | nil => simp [addAssoc]
  | cons e0 rest ih =>
    obtain ⟨k0, l⟩ := e0
    simp only [addAssoc, List.map_cons]
    by_cases hk : k0 = k
    · subst hk
      rw [if_pos]
      · simp
      · simp
    · rw [if_neg hk]
      simp only [List.map_cons, ih, List.mem_cons]
      by_cases hmem : k ∈ rest.map Prod.fst
      · rw [if_pos hmem, if_pos (Or.inr hmem)]
      · rw [if_neg hmem, if_neg (by push_neg; exact ⟨fun he => hk he.symm, hmem⟩)]
        simp

theorem addAssoc_keys_nodup {K : Type} [DecidableEq K]
    {gs : List (K × List PhotoMetadata)} {k : K} {p : PhotoMetadata}
    (h : (gs.map Prod.fst).Nodup) : ((addAssoc gs k p).map Prod.fst).Nodup := by
  rw [addAssoc_keys]
  by_cases hmem : k ∈ gs.map Prod.fst
  · rwa [if_pos hmem]
  · rw [if_neg hmem, List.nodup_append]
    exact ⟨h, List.nodup_singleton k, by simpa using hmem⟩

theorem addAssoc_pred {K : Type} [DecidableEq K] (P : K → PhotoMetadata → Prop)
    {gs : List (K × List PhotoMetadata)} {k : K} {p : PhotoMetadata}
    (hgs : ∀ e ∈ gs, ∀ x ∈ e.2, P e.1 x) (hp : P k p) :
    ∀ e ∈ addAssoc gs k p, ∀ x ∈ e.2, P e.1 x := by
  induction gs with
  | nil =>
    intro e he x hx
    simp only [addAssoc, List.mem_singleton] at he
    subst he
    rw [List.mem_singleton] at hx
    subst hx
    exact hp
  | cons e0 rest ih =>
    obtain ⟨k0, l⟩ := e0
    intro e he x hx
    simp only [addAssoc] at he
    by_cases hk : k0 = k
    · subst hk
      rw [if_pos rfl] at he
      rcases List.mem_cons.mp he with rfl | hrest
      · rcases List.mem_append.mp hx with hxl | hxp
        · exact hgs (k0, l) (List.mem_cons_self _ _) x hxl
        · rw [List.mem_singleton] at hxp
          subst hxp
          exact hp
      · exact hgs e (List.mem_cons_of_mem _ hrest) x hx
    · rw [if_neg hk] at he
      rcases List.mem_cons.mp he with rfl | hrest
      · exact hgs (k0, l) (List.mem_cons_self _ _) x hx
      · exact ih (fun e2 he2 => hgs e2 (List.mem_cons_of_mem _ he2)) e hrest x hx

theorem hashStep_nodup {gs : List (Str × List PhotoMetadata)} {p : PhotoMetadata}
    (h : (gs.map Prod.fst).Nodup) : ((hashStep gs p).map Prod.fst).Nodup := by
  unfold hashStep
  cases p.content_hash with
  | none => exact h
  | some hs =>
    show ((if hs = [] then gs else addAssoc gs hs p).map Prod.fst).Nodup
    by_cases hnil : hs = []
    · rw [if_pos hnil]; exact h
    · rw [if_neg hnil]; exact addAssoc_keys_nodup h

theorem hashStep_pred (P0 : List PhotoMetadata) {gs : List (Str × List PhotoMetadata)}
    {p : PhotoMetadata}
    (hgs : ∀ e ∈ gs, ∀ x ∈ e.2, x.content_hash = some e.1 ∧ x ∈ P0) (hp : p ∈ P0) :
    ∀ e ∈ hashStep gs p, ∀ x ∈ e.2, x.content_hash = some e.1 ∧ x ∈ P0 := by
  unfold hashStep
  cases hc : p.content_hash with
  | none => exact hgs
  | some hs =>
    show ∀ e ∈ (if hs = [] then gs else addAssoc gs hs p), ∀ x ∈ e.2,
      x.content_hash = some e.1 ∧ x ∈ P0
    by_cases hnil : hs = []
    · rw [if_pos hnil]; exact hgs
    · rw [if_neg hnil]
      exact addAssoc_pred (fun k x => x.content_hash = some k ∧ x ∈ P0) hgs ⟨hc, hp⟩

theorem group_by_content_hash_spec (photos : List PhotoMetadata) :
    ((group_by_content_hash photos).map Prod.fst).Nodup ∧
    (∀ e ∈ group_by_content_hash photos, ∀ x ∈ e.2,
      x.content_hash = some e.1 ∧ x ∈ photos) := by
  suffices h : ∀ (l : List PhotoMetadata) (gs : List (Str × List PhotoMetadata)),
      (∀ x ∈ l, x ∈ photos) →
      ((gs.map Prod.fst).Nodup ∧
        ∀ e ∈ gs, ∀ x ∈ e.2, x.content_hash = some e.1 ∧ x ∈ photos) →
      (((l.foldl hashStep gs).map Prod.fst).Nodup ∧
        ∀ e ∈ l.foldl hashStep gs, ∀ x ∈ e.2, x.content_hash = some e.1 ∧ x ∈ photos) by
    exact h photos [] (fun x hx => hx) ⟨by simp, by simp⟩
  intro l
  induction l with
  | nil => intro gs _ hgs; exact hgs
  | cons p rest ih =>
    intro gs hl hgs
    rw [List.foldl_cons]
    exact ih _ (fun x hx => hl x (List.mem_cons_of_mem _ hx))
      ⟨hashStep_nodup hgs.1, hashStep_pred photos hgs.2 (hl p (List.mem_cons_self _ _))⟩

theorem group_by_content_hash_pairwise (photos : List PhotoMetadata) :
    (group_by_content_hash photos).Pairwise entDisj := by
  obtain ⟨hk, hpred⟩ := group_by_content_hash_spec photos
  apply entries_pairwise_of_fun _ hk
  intro e1 he1 e2 he2 x hx1 hx2
  have h1 := (hpred e1 he1 x hx1).1
  have h2 := (hpred e2 he2 x hx2).1
  rw [h1] at h2
  exact Option.some.inj h2

theorem exifKeyStep_nodup {gs : List (ExifKey × List PhotoMetadata)} {p : PhotoMetadata}
    (h : (gs.map Prod.fst).Nodup) : ((exifKeyStep gs p).map Prod.fst).Nodup := by
  unfold exifKeyStep
  cases p.date_taken with
  | none => exact h
  | some d => exact addAssoc_keys_nodup h

theorem exifKeyStep_pred (P0 : List PhotoMetadata)
    {gs : List (ExifKey × List PhotoMetadata)} {p : PhotoMetadata}
    (hgs : ∀ e ∈ gs, ∀ x ∈ e.2,
      (∃ d, x.date_taken = some d ∧
        e.1 = (truncMicro d, x.camera_make, x.camera_model)) ∧ x ∈ P0)
    (hp : p ∈ P0) :
    ∀ e ∈ exifKeyStep gs p, ∀ x ∈ e.2,
      (∃ d, x.date_taken = some d ∧
        e.1 = (truncMicro d, x.camera_make, x.camera_model)) ∧ x ∈ P0 := by
  unfold exifKeyStep
  cases hc : p.date_taken with
  | none => exact hgs
  | some d =>
    exact addAssoc_pred
      (fun k x => (∃ d2, x.date_taken = some d2 ∧
        k = (truncMicro d2, x.camera_make, x.camera_model)) ∧ x ∈ P0)
      hgs ⟨⟨d, hc, rfl⟩, hp⟩

theorem group_by_exif_datetime_spec (photos : List PhotoMetadata) :
    ((group_by_exif_datetime photos).map Prod.fst).Nodup ∧
    (∀ e ∈ group_by_exif_datetime photos, ∀ x ∈ e.2,
      (∃ d, x.date_taken = some d ∧
        e.1 = (truncMicro d, x.camera_make, x.camera_model)) ∧ x ∈ photos) := by
  suffices h : ∀ (l : List PhotoMetadata) (gs : List (ExifKey × List PhotoMetadata)),
      (∀ x ∈ l, x ∈ photos) →
      ((gs.map Prod.fst).Nodup ∧
        ∀ e ∈ gs, ∀ x ∈ e.2,
          (∃ d, x.date_taken = some d ∧
            e.1 = (truncMicro d, x.camera_make, x.camera_model)) ∧ x ∈ photos) →
      (((l.foldl exifKeyStep gs).map Prod.fst).Nodup ∧
        ∀ e ∈ l.foldl exifKeyStep gs, ∀ x ∈ e.2,
          (∃ d, x.date_taken = some d ∧
            e.1 = (truncMicro d, x.camera_make, x.camera_model)) ∧ x ∈ photos) by
    exact h photos [] (fun x hx => hx) ⟨by simp, by simp⟩
  intro l
  induction l with
  | nil => intro gs _ hgs; exact hgs
  | cons p rest ih =>
    intro gs hl hgs
    rw [List.foldl_cons]
    exact ih _ (fun x hx => hl x (List.mem_cons_of_mem _ hx))
      ⟨exifKeyStep_nodup hgs.1, exifKeyStep_pred photos hgs.2 (hl p (List.mem_cons_self _ _))⟩

theorem pathsOf_acc (dg : List (Str × List PhotoMetadata)) :
    ∀ acc, dg.foldl (fun acc e => acc ++ e.2.map (fun p => p.file_path)) acc =
      acc ++ pathsOf dg := by
  induction dg with
  | nil => intro acc; simp [pathsOf]
  | cons e rest ih =>
    intro acc
    show rest.foldl _ (acc ++ e.2.map (fun p => p.file_path)) = acc ++ pathsOf (e :: rest)
    rw [ih (acc ++ e.2.map (fun p => p.file_path))]
    have h2 : pathsOf (e :: rest) = e.2.map (fun p => p.file_path) ++ pathsOf rest := by
      show rest.foldl _ ([] ++ e.2.map (fun p => p.file_path)) = _
      rw [List.nil_append, ih (e.2.map (fun p => p.file_path))]
    rw [h2, List.append_assoc]

theorem pathsOf_cons (e : Str × List PhotoMetadata) (rest : List (Str × List PhotoMetadata)) :
    pathsOf (e :: rest) = e.2.map (fun p => p.file_path) ++ pathsOf rest := by
  show rest.foldl _ ([] ++ e.2.map (fun p => p.file_path)) = _
  rw [List.nil_append, pathsOf_acc rest (e.2.map (fun p => p.file_path))]

theorem mem_pathsOf {dg : List (Str × List PhotoMetadata)} {q : PPath} :
    q ∈ pathsOf dg ↔ ∃ e ∈ dg, ∃ x ∈ e.2, x.file_path = q := by
  induction dg with
  | nil => simp [pathsOf]
  | cons e rest ih =>
    rw [pathsOf_cons, List.mem_append, ih, List.mem_map]
    constructor
    · rintro (⟨x, hx, rfl⟩ | ⟨e2, he2, x, hx, rfl⟩)
      · exact ⟨e, List.mem_cons_self _ _, x, hx, rfl⟩
      · exact ⟨e2, List.mem_cons_of_mem _ he2, x, hx, rfl⟩
    · rintro ⟨e2, he2, x, hx, rfl⟩
      rcases List.mem_cons.mp he2 with rfl | he2r
      · exact Or.inl ⟨x, hx, rfl⟩
      · exact Or.inr ⟨e2, he2r, x, hx, rfl⟩

theorem dictSet_keys_nodup {V : Type} {gs : List (Str × V)} {k : Str} {v : V}
    (h : (gs.map Prod.fst).Nodup) : ((dictSet gs k v).map Prod.fst).Nodup := by
  unfold dictSet
  by_cases hm : k ∈ gs.map Prod.fst
  · rw [if_pos hm]
    have hkeys : (gs.map (fun e => if e.1 = k then (k, v) else e)).map Prod.fst =
        gs.map Prod.fst := by
      rw [List.map_map]
      apply List.map_congr_left
      intro e _
      by_cases h1 : e.1 = k
      · simp [h1]
      · simp [h1]
    rw [hkeys]
    exact h
  · rw [if_neg hm, List.map_append, List.nodup_append]
    refine ⟨h, ?_, ?_⟩
    · rw [List.map_singleton]
      exact List.nodup_singleton k
    · intro a ha hb
      rw [List.map_singleton, List.mem_singleton] at hb
      subst hb
      exact hm ha

theorem dictSet_mem {V : Type} {gs : List (Str × V)} {k : Str} {v : V} {e : Str × V}
    (h : e ∈ dictSet gs k v) : e ∈ gs ∨ e = (k, v) := by
  unfold dictSet at h
  by_cases hm : k ∈ gs.map Prod.fst
  · rw [if_pos hm] at h
    obtain ⟨e0, he0, hfe⟩ := List.mem_map.mp h
    by_cases h1 : e0.1 = k
    · rw [if_pos h1] at hfe
      exact Or.inr hfe.symm
    · rw [if_neg h1] at hfe
      exact Or.inl (hfe ▸ he0)
  · rw [if_neg hm] at h
    rcases List.mem_append.mp h with h1 | h2
    · exact Or.inl h1
    · exact Or.inr (List.mem_singleton.mp h2)

theorem dictSet_pairwise {gs : List (Str × List PhotoMetadata)} {k : Str}
    {v : List PhotoMetadata}
    (hkeys : (gs.map Prod.fst).Nodup)
    (h : gs.Pairwise entDisj)
    (hd : ∀ d ∈ gs, ∀ x, x ∈ d.2 → x ∈ v → False) :
    (dictSet gs k v).Pairwise entDisj := by
  unfold dictSet
  by_cases hm : k ∈ gs.map Prod.fst
  · rw [if_pos hm, List.pairwise_map]
    have hcomb := (List.pairwise_map.mp hkeys).and h
    refine List.Pairwise.imp_of_mem ?_ hcomb
    intro a b ha hb hab
    obtain ⟨hne, hrd⟩ := hab
    intro p hp1 hp2
    by_cases h1 : a.1 = k <;> by_cases h2 : b.1 = k
    · exact hne (h1.trans h2.symm)
    · rw [if_pos h1] at hp1
      rw [if_neg h2] at hp2
      exact hd b hb p hp2 hp1
    · rw [if_neg h1] at hp1
      rw [if_pos h2] at hp2
      exact hd a ha p hp1 hp2
    · rw [if_neg h1] at hp1
      rw [if_neg h2] at hp2
      exact hrd p hp1 hp2
  · rw [if_neg hm, List.pairwise_append]
    refine ⟨h, List.pairwise_singleton _ _, ?_⟩
    intro d hd2 b hb
    rw [List.mem_singleton] at hb
    subst hb
    intro p hp1 hp2
    exact hd d hd2 p hp1 hp2

theorem countP_le_one_of_pairwise {l : List (Str × List PhotoMetadata)}
    (h : l.Pairwise entDisj) (p : PhotoMetadata) :
    l.countP (fun e => decide (p ∈ e.2)) ≤ 1 := by
  induction l with
  | nil => simp
  | cons e rest ih =>
    rw [List.pairwise_cons] at h
    rw [List.countP_cons]
    by_cases hp : p ∈ e.2
    · have hzero : rest.countP (fun e2 => decide (p ∈ e2.2)) = 0 := by
        rw [List.countP_eq_zero]
        intro e2 he2
        simp only [decide_eq_true_eq]
        exact fun hp2 => h.1 e2 he2 p hp hp2
      rw [hzero]
      simp [hp]
    · rw [decide_eq_false hp]
      simpa using ih h.2

theorem hashFold_inv (P0 : List PhotoMetadata) :
    ∀ (ents : List (Str × List PhotoMetadata)) (dg : List (Str × List PhotoMetadata)),
      ents.Pairwise entDisj →
      (∀ e ∈ ents, ∀ x ∈ e.2, x ∈ P0) →
      ((dg.map Prod.fst).Nodup ∧ dg.Pairwise entDisj ∧
        (∀ d ∈ dg, ∀ x ∈ d.2, x ∈ P0) ∧
        (∀ d ∈ dg, ∀ e ∈ ents, ∀ x, x ∈ d.2 → x ∈ e.2 → False)) →
      (((ents.foldl (fun dg e =>
          if 1 < e.2.length then dictSet dg (hashGroupId e.1) e.2 else dg) dg).map
            Prod.fst).Nodup ∧
        (ents.foldl (fun dg e =>
          if 1 < e.2.length then dictSet dg (hashGroupId e.1) e.2 else dg) dg).Pairwise
            entDisj ∧
        (∀ d ∈ ents.foldl (fun dg e =>
          if 1 < e.2.length then dictSet dg (hashGroupId e.1) e.2 else dg) dg,
            ∀ x ∈ d.2, x ∈ P0)) := by
  intro ents
  induction ents with
  | nil =>
    intro dg _ _ hdg
    exact ⟨hdg.1, hdg.2.1, hdg.2.2.1⟩
  | cons e rest ih =>
    intro dg hpw hmem hdg
    rw [List.foldl_cons]
    rw [List.pairwise_cons] at hpw
    apply ih
    · exact hpw.2
    · intro e2 he2 x hx
      exact hmem e2 (List.mem_cons_of_mem _ he2) x hx
    · obtain ⟨hk, hpd, hmemd, hcross⟩ := hdg
      by_cases hlen : 1 < e.2.length
      · rw [if_pos hlen]
        refine ⟨dictSet_keys_nodup hk,
          dictSet_pairwise hk hpd
            (fun d hd x hx1 hx2 => hcross d hd e (List.mem_cons_self _ _) x hx1 hx2),
          ?_, ?_⟩
        · intro d hd x hx
          rcases dictSet_mem hd with hin | rfl
          · exact hmemd d hin x hx
          · exact hmem e (List.mem_cons_self _ _) x hx
        · intro d hd e2 he2 x hx1 hx2
          rcases dictSet_mem hd with hin | rfl
          · exact hcross d hin e2 (List.mem_cons_of_mem _ he2) x hx1 hx2
          · exact hpw.1 e2 he2 x hx1 hx2
      · rw [if_neg hlen]
        exact ⟨hk, hpd, hmemd,
          fun d hd e2 he2 x hx1 hx2 => hcross d hd e2 (List.mem_cons_of_mem _ he2) x hx1 hx2⟩

theorem hashStage_spec (photos : List PhotoMetadata) :
    ((hashStage photos).map Prod.fst).Nodup ∧
    (hashStage photos).Pairwise entDisj ∧
    (∀ d ∈ hashStage photos, ∀ x ∈ d.2, x ∈ photos) := by
  obtain ⟨_, hpred⟩ := group_by_content_hash_spec photos
  exact hashFold_inv photos (group_by_content_hash photos) []
    (group_by_content_hash_pairwise photos)
    (fun e he x hx => (hpred e he x hx).2)
    ⟨by simp, List.Pairwise.nil, by simp, by simp⟩

theorem exifStep_inv (P0 : List PhotoMetadata) (st : List (Str × List PhotoMetadata) × Nat)
    (e : ExifKey × List PhotoMetadata)
    (hdg : (st.1.map Prod.fst).Nodup ∧ st.1.Pairwise entDisj ∧
      (∀ d ∈ st.1, ∀ x ∈ d.2, x ∈ P0))
    (he : ∀ x ∈ e.2, x ∈ P0) :
    ((exifStep st e).1.map Prod.fst).Nodup ∧ (exifStep st e).1.Pairwise entDisj ∧
    (∀ d ∈ (exifStep st e).1, ∀ x ∈ d.2, x ∈ P0) := by
  set ung := e.2.filter (fun p => decide (p.file_path ∉ pathsOf st.1)) with hung
  have hstepEq : exifStep st e =
      if 1 < e.2.length then
        (if 1 < ung.length then (dictSet st.1 (exifGroupId (st.2 + 1)) ung, st.2 + 1) else st)
      else st := rfl
  rw [hstepEq]
  by_cases h1 : 1 < e.2.length
  · rw [if_pos h1]
    by_cases h2 : 1 < ung.length
    · rw [if_pos h2]
      obtain ⟨hk, hpd, hmemd⟩ := hdg
      have hcross : ∀ d ∈ st.1, ∀ x, x ∈ d.2 → x ∈ ung → False := by
        intro d hd x hx1 hx2
        rw [hung] at hx2
        have hfree : x.file_path ∉ pathsOf st.1 := by
          simpa using (List.mem_filter.mp hx2).2
        exact hfree (mem_pathsOf.mpr ⟨d, hd, x, hx1, rfl⟩)
      refine ⟨dictSet_keys_nodup hk, dictSet_pairwise hk hpd hcross, ?_⟩
      intro d hd x hx
      rcases dictSet_mem hd with hin | rfl
      · exact hmemd d hin x hx
      · exact he x (List.mem_of_mem_filter (hung ▸ hx))
    · rw [if_neg h2]
      exact hdg
  · rw [if_neg h1]
    exact hdg

theorem exifStage_inv (P0 : List PhotoMetadata) :
    ∀ (ents : List (ExifKey × List PhotoMetadata))
      (st : List (Str × List PhotoMetadata) × Nat),
      (∀ e ∈ ents, ∀ x ∈ e.2, x ∈ P0) →
      ((st.1.map Prod.fst).Nodup ∧ st.1.Pairwise entDisj ∧
        (∀ d ∈ st.1, ∀ x ∈ d.2, x ∈ P0)) →
      (((ents.foldl exifStep st).1.map Prod.fst).Nodup ∧
        (ents.foldl exifStep st).1.Pairwise entDisj ∧
        (∀ d ∈ (ents.foldl exifStep st).1, ∀ x ∈ d.2, x ∈ P0)) := by
  intro ents
  induction ents with
  | nil =>
    intro st _ hdg
    exact hdg
  | cons e rest ih =>
    intro st hmem hdg
    rw [List.foldl_cons]
    exact ih (exifStep st e)
      (fun e2 he2 x hx => hmem e2 (List.mem_cons_of_mem _ he2) x hx)
      (exifStep_inv P0 st e hdg (fun x hx => hmem e (List.mem_cons_self _ _) x hx))

theorem fnameFold_inv (P0 : List PhotoMetadata) :
    ∀ (ents : List (Str × List PhotoMetadata))
      (st : List (Str × List PhotoMetadata) × Nat),
      ents.Pairwise entDisj →
      (∀ e ∈ ents, ∀ x ∈ e.2, x ∈ P0) →
      ((st.1.map Prod.fst).Nodup ∧ st.1.Pairwise entDisj ∧
        (∀ d ∈ st.1, ∀ x ∈ d.2, x ∈ P0) ∧
        (∀ d ∈ st.1, ∀ e ∈ ents, ∀ x, x ∈ d.2 → x ∈ e.2 → False)) →
      (((ents.foldl fnameStep st).1.map Prod.fst).Nodup ∧
        (ents.foldl fnameStep st).1.Pairwise entDisj ∧
        (∀ d ∈ (ents.foldl fnameStep st).1, ∀ x ∈ d.2, x ∈ P0)) := by
  intro ents
  induction ents with
  | nil =>
    intro st _ _ hdg
    exact ⟨hdg.1, hdg.2.1, hdg.2.2.1⟩
  | cons e rest ih =>
    intro st hpw hmem hdg
    rw [List.foldl_cons]
    rw [List.pairwise_cons] at hpw
    apply ih
    · exact hpw.2
    · intro e2 he2 x hx
      exact hmem e2 (List.mem_cons_of_mem _ he2) x hx
    · obtain ⟨hk, hpd, hmemd, hcross⟩ := hdg
      have hstepEq : fnameStep st e =
          if 1 < e.2.length then
            (dictSet st.1 (filenameGroupId (st.2 + 1)) e.2, st.2 + 1)
          else st := rfl
      rw [hstepEq]
      by_cases hlen : 1 < e.2.length
      · rw [if_pos hlen]
        refine ⟨dictSet_keys_nodup hk,
          dictSet_pairwise hk hpd
            (fun d hd x hx1 hx2 => hcross d hd e (List.mem_cons_self _ _) x hx1 hx2),
          ?_, ?_⟩
        · intro d hd x hx
          rcases dictSet_mem hd with hin | rfl
          · exact hmemd d hin x hx
          · exact hmem e (List.mem_cons_self _ _) x hx
        · intro d hd e2 he2 x hx1 hx2
          rcases dictSet_mem hd with hin | rfl
          · exact hcross d hin e2 (List.mem_cons_of_mem _ he2) x hx1 hx2
          · exact hpw.1 e2 he2 x hx1 hx2
      · rw [if_neg hlen]
        exact ⟨hk, hpd, hmemd,
          fun d hd e2 he2 x hx1 hx2 => hcross d hd e2 (List.mem_cons_of_mem _ he2) x hx1 hx2⟩

/-- C2: the groups detect_duplicates returns are record-level pairwise
disjoint, drawn from the input, and no record belongs to more than one
group: together with the ungrouped remainder they cover the input exactly
once. -/
theorem C2_detect_duplicates_partition (photos : List PhotoMetadata)
    (skip_filename_similarity : Bool) :
    (detect_duplicates photos skip_filename_similarity).Pairwise entDisj ∧
    (∀ e ∈ detect_duplicates photos skip_filename_similarity, ∀ x ∈ e.2, x ∈ photos) ∧
    (∀ p : PhotoMetadata,
      (detect_duplicates photos skip_filename_similarity).countP
        (fun e => decide (p ∈ e.2)) ≤ 1) := by
  have hhash := hashStage_spec photos
  obtain ⟨_, hexpred⟩ := group_by_exif_datetime_spec photos
  have hst1 := exifStage_inv photos (group_by_exif_datetime photos) (hashStage photos, 0)
    (fun e he x hx => (hexpred e he x hx).2) ⟨hhash.1, hhash.2.1, hhash.2.2⟩
  cases skip_filename_similarity with
  | true =>
    exact ⟨hst1.2.1, hst1.2.2, fun p => countP_le_one_of_pairwise hst1.2.1 p⟩
  | false =>
    have hfg := group_by_filename_similarity_spec
      (photos.filter (fun p => decide (p.file_path ∉
        pathsOf (exifStage photos (hashStage photos, 0)).1)))
    have hfgm := group_by_filename_similarity_members
      (photos.filter (fun p => decide (p.file_path ∉
        pathsOf (exifStage photos (hashStage photos, 0)).1)))
    have hcross : ∀ d ∈ (exifStage photos (hashStage photos, 0)).1,
        ∀ e ∈ group_by_filename_similarity
          (photos.filter (fun p => decide (p.file_path ∉
            pathsOf (exifStage photos (hashStage photos, 0)).1))),
        ∀ x, x ∈ d.2 → x ∈ e.2 → False := by
      intro d hd e he x hx1 hx2
      have hxu := hfgm e he x hx2
      have hfree : x.file_path ∉ pathsOf (exifStage photos (hashStage photos, 0)).1 := by
        simpa using (List.mem_filter.mp hxu).2
      exact hfree (mem_pathsOf.mpr ⟨d, hd, x, hx1, rfl⟩)
    have hout := fnameFold_inv photos
      (group_by_filename_similarity
        (photos.filter (fun p => decide (p.file_path ∉
          pathsOf (exifStage photos (hashStage photos, 0)).1))))
      (exifStage photos (hashStage photos, 0))
      hfg.1
      (fun e he x hx => List.mem_of_mem_filter (hfgm e he x hx))
      ⟨hst1.1, hst1.2.1, hst1.2.2, hcross⟩
    exact ⟨hout.2.1, hout.2.2, fun p => countP_le_one_of_pairwise hout.2.1 p⟩

/-- C2 witness: the theorem instantiated at a concrete input. -/
theorem C2_witness :
    (detect_duplicates [photoA, photoB] false).Pairwise entDisj :=
  (C2_detect_duplicates_partition [photoA, photoB] false).1

end ImageOrganizer
